import Mathlib

/-!
Verification development for the llm-async provider library.

This file gives a shallow embedding, in Lean 4, of the response-normalization,
retry and SSE-decoding core of the library, translated from the Python source:

- models/response.py      (Response, MainResponse, StreamChunk, ToolCall)
- providers/base.py       (acomplete keyword forwarding, stream helpers)
- providers/openai.py     (unary normalizer, tool execution)
- providers/claude.py     (single_complete response schema check)
- providers/google.py     (unary normalizer)
- utils/retry.py          (RetryConfig, retry_http)
- utils/http.py           (stream_json SSE buffer loop, delay computation)

Python dynamic values are embedded as the inductive PyVal; operations that can
raise are embedded as Option / Except valued functions; the nondeterministic
jitter factor random.random() and the standard-library JSON parser json.loads
are passed as explicit parameters.  All definitions are executable.
-/

/-- Embedding of a Python value as used by the library: strings, ints, bools,
None, lists and (insertion-ordered) dicts with string keys. -/
inductive PyVal : Type where
  | str (s : String)
  | int (n : Int)
  | bool (b : Bool)
  | none
  | list (xs : List PyVal)
  | dict (kvs : List (String × PyVal))

namespace PyVal

/-- Python truthiness of an embedded value (used by `if x:` tests). -/
def truthy : PyVal → Bool
  | .str s => !s.isEmpty
  | .int n => n != 0
  | .bool b => b
  | .none => false
  | .list xs => !xs.isEmpty
  | .dict kvs => !kvs.isEmpty

/-- Python `v == s` for a string literal `s`; a non-string value compares
unequal. -/
def isStrEq (v : PyVal) (s : String) : Bool :=
  match v with
  | .str t => t == s
  | _ => false

end PyVal

/-- First value bound to a key in an association list (Python dict lookup). -/
def lookupKV (kvs : List (String × PyVal)) (k : String) : Option PyVal :=
  match kvs with
  | [] => Option.none
  | (k', v) :: rest => if k' = k then Option.some v else lookupKV rest k

/-- Python subscript `v[k]` on a dict; `Option.none` models a raised KeyError
(or a TypeError on a non-dict). -/
def subscr (v : PyVal) (k : String) : Option PyVal :=
  match v with
  | .dict kvs => lookupKV kvs k
  | _ => Option.none

/-- Python subscript `v[i]` on a list; `Option.none` models a raised IndexError
(or a TypeError on a non-list). -/
def idx (v : PyVal) (i : Nat) : Option PyVal :=
  match v with
  | .list xs => xs.get? i
  | _ => Option.none

/-- Python `v.get(k)` on a dict, giving Python `None` for a missing key;
`Option.none` models the AttributeError raised when `v` is not a dict. -/
def pyDictGet (v : PyVal) (k : String) : Option PyVal :=
  match v with
  | .dict kvs => Option.some ((lookupKV kvs k).getD .none)
  | _ => Option.none

/-- Python `v.get(k, d)` on a dict with an explicit default; `Option.none`
models the AttributeError raised when `v` is not a dict. -/
def pyDictGetD (v : PyVal) (k : String) (d : PyVal) : Option PyVal :=
  match v with
  | .dict kvs => Option.some ((lookupKV kvs k).getD d)
  | _ => Option.none

/-- Containment of one character list in another, scanning positions from the
left (used to model Python substring membership). -/
def isSubseg (needle : List Char) : List Char → Bool
  | [] => needle.isEmpty
  | c :: rest => needle.isPrefixOf (c :: rest) || isSubseg needle rest

/-- Python `k in v` for a string key `k`: key membership for dicts, substring
test for strings, value membership for lists (a non-string list element never
equals the string `k`).  `Option.none` models the TypeError raised on other
operand kinds. -/
def pyInOp (k : String) (v : PyVal) : Option Bool :=
  match v with
  | .dict kvs => Option.some (lookupKV kvs k).isSome
  | .str t => Option.some (isSubseg k.toList t.toList)
  | .list xs => Option.some (xs.any fun x => x.isStrEq k)
  | _ => Option.none

/-! ## Canonical data model (models/response.py) -/

/-- Embedding of the ToolCall dataclass of models/response.py.  Field values
are kept as dynamic Python values; absent optional fields are `PyVal.none`. -/
structure ToolCallM where
  id : PyVal
  typ : PyVal
  name : PyVal := PyVal.none
  input : PyVal := PyVal.none
  func : PyVal := PyVal.none

/-- Embedding of the MainResponse dataclass of models/response.py. -/
structure MainResponseM where
  content : PyVal
  tool_calls : Option (List ToolCallM)
  original_data : PyVal

/-- Embedding of the StreamChunk dataclass of models/response.py: an optional
text delta plus the original parsed vendor event. -/
structure StreamChunkM where
  content : Option String
  original : PyVal

/-- Value stored in the dynamically typed `stream` slot of Response.  The
dataclass declares a bool, but callers can (and, as proved below, do) pass a
non-bool positionally into this slot. -/
inductive StreamFlagV : Type where
  | bool (b : Bool)
  | main (m : MainResponseM)
  | msg (content : PyVal)

/-- Python truthiness of the `stream` slot: dataclass instances are always
truthy. -/
def StreamFlagV.truthy : StreamFlagV → Bool
  | .bool b => b
  | .main _ => true
  | .msg _ => true

/-- Embedding of the Response dataclass of models/response.py (before
`__post_init__` runs). -/
structure ResponseM where
  original : PyVal
  provider_name : String
  stream : StreamFlagV
  stream_generator : Option (List StreamChunkM)
  main_response : Option MainResponseM

/-! ## Unary response normalizers (response.py `_extract_main_response`) -/

/-- Builds the ToolCall list of the openai/openrouter branch of
`Response._extract_main_response` (and the identical
`OpenAIProvider._parse_response`): for each entry,
`ToolCall(id=tc["id"], type=tc["type"], function=tc.get("function"))`.
`Option.none` models a raised KeyError/AttributeError. -/
def openaiToolCalls : List PyVal → Option (List ToolCallM)
  | [] => Option.some []
  | tc :: rest => do
    let i ← subscr tc "id"
    let t ← subscr tc "type"
    let f ← pyDictGet tc "function"
    let tail ← openaiToolCalls rest
    Option.some ({ id := i, typ := t, func := f } :: tail)

/-- The openai/openrouter branch of `Response._extract_main_response`
(models/response.py lines 37-50), which is also the body of
`OpenAIProvider._parse_response` (providers/openai.py lines 37-50):
`content = message.get("content")` with no coercion of Python None. -/
def openaiExtractMain (original : PyVal) : Option MainResponseM := do
  let choices ← subscr original "choices"
  let c0 ← idx choices 0
  let message ← subscr c0 "message"
  let tcData ← pyDictGet message "tool_calls"
  let content ← pyDictGet message "content"
  let toolCalls ←
    if tcData.truthy then
      match tcData with
      | .list items => (openaiToolCalls items).map Option.some
      | _ => Option.none
    else Option.some Option.none
  Option.some
    { content := content
      tool_calls := toolCalls
      original_data := .dict [("content", content), ("tool_calls", tcData)] }

/-- One pass of the claude block loop of `Response._extract_main_response`
(models/response.py lines 51-68): accumulates text from `text`-typed blocks
(and from any block carrying a `text` key) and ToolCalls from `tool_use`
blocks.  `Option.none` models a raised KeyError/AttributeError. -/
def claudeFold : List PyVal → Option (String × List ToolCallM)
  | [] => Option.some ("", [])
  | block :: rest => do
    let bType ← pyDictGet block "type"
    let (text, calls) ←
      if bType.isStrEq "text" then do
        let t ← subscr block "text"
        match t with
        | .str s => Option.some (s, ([] : List ToolCallM))
        | _ => Option.none
      else if bType.isStrEq "tool_use" then do
        let i ← subscr block "id"
        let n ← subscr block "name"
        let inp ← subscr block "input"
        Option.some ("", [{ id := i, typ := .str "tool_use", name := n, input := inp }])
      else do
        let hasText ← pyInOp "text" block
        if hasText then do
          let t ← subscr block "text"
          match t with
          | .str s => Option.some (s, ([] : List ToolCallM))
          | _ => Option.none
        else Option.some ("", [])
    let (restText, restCalls) ← claudeFold rest
    Option.some (text ++ restText, calls ++ restCalls)

/-- Serialization of claude ToolCalls into the `original_data` dict of the
claude branch (models/response.py lines 72-87). -/
def claudeToolCallDicts (tcs : List ToolCallM) : PyVal :=
  .list (tcs.map fun tc =>
    .dict [("id", tc.id), ("type", tc.typ), ("name", tc.name), ("input", tc.input)])

/-- The claude branch of `Response._extract_main_response` (models/response.py
lines 51-88): `content = text_content or None`, i.e. an empty accumulated
text becomes Python None, and an empty tool-call list becomes None. -/
def claudeExtractMain (original : PyVal) : Option MainResponseM := do
  let blocks ← subscr original "content"
  let items ← match blocks with
    | .list items => Option.some items
    | _ => Option.none
  let (text, calls) ← claudeFold items
  let contentV : PyVal := if text = "" then .none else .str text
  let tcV : PyVal := if calls.isEmpty then .none else claudeToolCallDicts calls
  Option.some
    { content := contentV
      tool_calls := if calls.isEmpty then Option.none else Option.some calls
      original_data := .dict [("content", contentV), ("tool_calls", tcV)] }

/-- One pass of the google parts loop shared by
`Response._extract_main_response` (models/response.py lines 105-119) and
`GoogleProvider._parse_response` (providers/google.py lines 89-103):
text parts are concatenated, `functionCall` parts become ToolCalls with a
synthesized id `call_<index>`. -/
def googleFold (startIdx : Nat) : List PyVal → Option (String × List ToolCallM)
  | [] => Option.some ("", [])
  | part :: rest => do
    let hasText ← pyInOp "text" part
    if hasText then do
      let t ← subscr part "text"
      match t with
      | .str s => do
        let (restText, restCalls) ← googleFold startIdx rest
        Option.some (s ++ restText, restCalls)
      | _ => Option.none
    else do
      let hasFC ← pyInOp "functionCall" part
      if hasFC then do
        let fc ← subscr part "functionCall"
        let n ← pyDictGetD fc "name" (.str "")
        let args ← pyDictGetD fc "args" (.dict [])
        let call : ToolCallM :=
          { id := .str ("call_" ++ toString startIdx)
            typ := .str "function"
            func := .dict [("name", n), ("arguments", args)] }
        let (restText, restCalls) ← googleFold (startIdx + 1) rest
        Option.some (restText, call :: restCalls)
      else do
        let (restText, restCalls) ← googleFold startIdx rest
        Option.some (restText, restCalls)

/-- Serialization of google ToolCalls into the `original_data` dict of the
google branch of `Response._extract_main_response` (lines 126-137). -/
def googleToolCallDicts (tcs : List ToolCallM) : PyVal :=
  .list (tcs.map fun tc =>
    .dict [("id", tc.id), ("type", tc.typ), ("function", tc.func)])

/-- The google branch of `Response._extract_main_response` (models/response.py
lines 89-139): empty `candidates` yields an empty MainResponse; otherwise the
parts of the first candidate are folded, and `text_content or None` /
`tool_calls or None` coerce empties to Python None. -/
def googleExtractMain (original : PyVal) : Option MainResponseM := do
  let candidates ← pyDictGetD original "candidates" (.list [])
  if !candidates.truthy then
    Option.some
      { content := .none
        tool_calls := Option.none
        original_data := .dict [("content", .none), ("tool_calls", .none)] }
  else do
    let cand ← idx candidates 0
    let contentData ← pyDictGetD cand "content" (.dict [])
    let parts ← pyDictGetD contentData "parts" (.list [])
    let items ← match parts with
      | .list items => Option.some items
      | _ => Option.none
    let (text, calls) ← googleFold 0 items
    let contentV : PyVal := if text = "" then .none else .str text
    let tcV : PyVal := if calls.isEmpty then .none else googleToolCallDicts calls
    Option.some
      { content := contentV
        tool_calls := if calls.isEmpty then Option.none else Option.some calls
        original_data := .dict [("content", contentV), ("tool_calls", tcV)] }

/-- Dispatch of `Response._extract_main_response` on the provider-name tag
(models/response.py lines 34-141); `Option.none` also models the ValueError
raised for an unsupported provider. -/
def extractMainResponse (provider : String) (original : PyVal) : Option MainResponseM :=
  if provider = "openai" || provider = "openrouter" then openaiExtractMain original
  else if provider = "claude" then claudeExtractMain original
  else if provider = "google" then googleExtractMain original
  else Option.none

/-- Construction of a Response followed by `__post_init__`
(models/response.py lines 30-32): when the `stream` slot is falsy the
main_response field is overwritten with the extracted main response; when it
is truthy (a True bool, or any dataclass instance passed positionally into
the slot) nothing is extracted and the main_response argument is kept. -/
def mkResponse (original : PyVal) (provider : String) (stream : StreamFlagV)
    (gen : Option (List StreamChunkM)) (main : Option MainResponseM) : Option ResponseM :=
  if stream.truthy then
    Option.some
      { original := original, provider_name := provider, stream := stream
        stream_generator := gen, main_response := main }
  else
    (extractMainResponse provider original).map fun m =>
      { original := original, provider_name := provider, stream := stream
        stream_generator := gen, main_response := Option.some m }

/-- Embedding of `Response.stream_content` (models/response.py lines 143-148)
applied to a fully materialized chunk sequence: a chunk's content is yielded
only when Python-truthy (`if chunk.content:`), i.e. non-None and non-empty.
When the `stream` slot is falsy or the generator is absent nothing is
yielded. -/
def streamContentChunks (chunks : List StreamChunkM) : List String :=
  chunks.filterMap fun chunk =>
    match chunk.content with
    | Option.some s => if s.isEmpty then Option.none else Option.some s
    | Option.none => Option.none

/-- Response-level `stream_content`: guarded by
`if self.stream and self.stream_generator:`. -/
def responseStreamContent (r : ResponseM) : List String :=
  match r.stream_generator with
  | Option.some chunks => if r.stream.truthy then streamContentChunks chunks else []
  | Option.none => []

/-! ## GoogleProvider unary completion (providers/google.py) -/

/-- Embedding of `GoogleProvider._parse_response` (providers/google.py lines
78-112).  It differs from the google branch of `_extract_main_response` only
in its `original_data`, which is `{"role": candidate.get("role","model"),
"parts": parts}`. -/
def googleParseResponse (original : PyVal) : Option MainResponseM := do
  let candidates ← pyDictGetD original "candidates" (.list [])
  if !candidates.truthy then
    Option.some
      { content := .none
        tool_calls := Option.none
        original_data := .dict [("role", .str "model"), ("parts", .list [])] }
  else do
    let cand ← idx candidates 0
    let contentData ← pyDictGetD cand "content" (.dict [])
    let parts ← pyDictGetD contentData "parts" (.list [])
    let items ← match parts with
      | .list items => Option.some items
      | _ => Option.none
    let (text, calls) ← googleFold 0 items
    let role ← pyDictGetD cand "role" (.str "model")
    Option.some
      { content := if text = "" then .none else .str text
        tool_calls := if calls.isEmpty then Option.none else Option.some calls
        original_data := .dict [("role", role), ("parts", parts)] }

/-- The non-streaming tail of `GoogleProvider._single_complete`
(providers/google.py lines 197-201): the parsed main response is passed as the
THIRD POSITIONAL argument of the Response constructor, i.e. into the `stream`
slot, not into `main_response`:
`return Response(response, self.__class__.name(), main_response)`. -/
def googleUnaryComplete (body : PyVal) : Option ResponseM := do
  let main ← googleParseResponse body
  mkResponse body "google" (.main main) Option.none Option.none

/-! ## Retry policy engine (utils/retry.py, utils/http.py) -/

/-- Embedding of the RetryConfig dataclass (utils/retry.py lines 30-38).
Python floats are embedded as rationals; `retry_on_exceptions` is represented
implicitly by the `retryableExc` field of a failure (whether the raised
exception is an instance of one of the configured classes). -/
structure RetryCfg where
  max_attempts : Nat
  base_delay : ℚ
  max_delay : ℚ
  backoff_factor : ℚ
  retry_on_status : List Nat
  jitter : Bool

/-- A raised failure, as observed by `retry_http`'s wrapper:
`retryableExc` is the result of `isinstance(e, _config.retry_on_exceptions)`,
and `httpStatus` the status extracted (when present) by
`re.search(r"HTTP (\d+)", str(e.args[0]))`. -/
structure HttpFailure where
  retryableExc : Bool
  httpStatus : Option Nat
deriving DecidableEq

/-- The retry decision of `retry_http` (utils/retry.py lines 122-132): an
instance of a configured exception class retries; otherwise a failure whose
message carries an HTTP status retries exactly when that status is in
`retry_on_status`. -/
def shouldRetry (cfg : RetryCfg) (e : HttpFailure) : Bool :=
  if e.retryableExc then true
  else
    match e.httpStatus with
    | Option.some s => cfg.retry_on_status.contains s
    | Option.none => false

/-- Outcome of an exhausted `retry_http` loop. -/
inductive RetryErr : Type where
  | exc (e : HttpFailure)
  | noAttempt
deriving DecidableEq

/-- The attempt loop of `retry_http` (utils/retry.py lines 116-147) over an
operation `op` that either succeeds or raises on each attempt.  The returned
Nat counts how many times `op` was invoked.  `fuel` is the number of loop
iterations left, `cfg.max_attempts - attempt` at every call; the sleep between
attempts is a counting no-op here.  Raising on `not should_retry or attempt ==
max_attempts - 1` is modelled verbatim; a zero-iteration loop raises the
generic "Retry failed without exception" (`RetryErr.noAttempt`). -/
def retryHttpGo {α : Type} (cfg : RetryCfg) (op : Nat → Except HttpFailure α) :
    Nat → Nat → Except RetryErr α × Nat
  | _, 0 => (.error .noAttempt, 0)
  | attempt, fuel + 1 =>
    match op attempt with
    | .ok v => (.ok v, 1)
    | .error e =>
      if shouldRetry cfg e = false ∨ attempt = cfg.max_attempts - 1 then
        (.error (.exc e), 1)
      else
        let r := retryHttpGo cfg op (attempt + 1) fuel
        (r.1, r.2 + 1)

/-- `retry_http(config)(func)` applied to an operation: run the attempt loop
from attempt 0 with `max_attempts` iterations available. -/
def retryHttp {α : Type} (cfg : RetryCfg) (op : Nat → Except HttpFailure α) :
    Except RetryErr α × Nat :=
  retryHttpGo cfg op 0 cfg.max_attempts

/-- The backoff delay computation shared by `retry_http` (utils/retry.py lines
137-142) and the streaming connection loop of `stream_json` (utils/http.py
lines 108-111 and 121-124): exponential backoff capped at `max_delay`, then
scaled by the jitter factor `0.5 + random.random() * 0.5` when jitter is
enabled.  The realized random factor `j` is passed explicitly. -/
def delayFor (cfg : RetryCfg) (attempt : Nat) (j : ℚ) : ℚ :=
  let d := cfg.base_delay * cfg.backoff_factor ^ attempt
  let d := min d cfg.max_delay
  if cfg.jitter then d * j else d

/-! ## Tool execution (providers/openai.py `_execute_tools`,
providers/google.py `execute_tool`) -/

/-- Failures raised during tool execution. -/
inductive ToolExecErr : Type where
  | jsonDecodeError
  | attributeError
  | toolNotFound (name : String)
deriving DecidableEq

/-- The argument-normalization step of `OpenAIProvider._execute_tools`
(providers/openai.py lines 78-83) and `GoogleProvider.execute_tool`
(providers/google.py lines 134-140):

  if isinstance(args, str): args = json.loads(args)
  elif not isinstance(args, dict): args = {}

A string is handed to `json.loads` with NO exception handler, so an
unparseable string raises; only a non-string non-dict value is replaced by
the empty dict.  The standard-library parser is the explicit `jsonLoads`
parameter; `Option.none` is a JSONDecodeError. -/
def parseToolArgs (jsonLoads : String → Option PyVal) (args : PyVal) :
    Except ToolExecErr PyVal :=
  match args with
  | .str s =>
    match jsonLoads s with
    | Option.some v => .ok v
    | Option.none => .error .jsonDecodeError
  | .dict kvs => .ok (.dict kvs)
  | _ => .ok (.dict [])

/-- The per-call loop of `OpenAIProvider._execute_tools` (providers/openai.py
lines 67-140), with the pubsub telemetry (pure side channel) omitted.  Each
executable entry resolves a callable, normalizes its arguments via
`parseToolArgs`, invokes it (`str(result)` is the String the callable
returns), and appends an OpenAI-shaped tool-result message.  The same
type/function/name dispatch and the same argument normalization appear in
`GoogleProvider.execute_tool` (providers/google.py lines 129-147). -/
def executeTools (jsonLoads : String → Option PyVal)
    (tools : String → Option (PyVal → String)) :
    List ToolCallM → Except ToolExecErr (List PyVal)
  | [] => .ok []
  | tc :: rest =>
    let branch : Except ToolExecErr (Option (PyVal × PyVal × PyVal)) :=
      if tc.typ.isStrEq "function" && tc.func.truthy then
        match pyDictGet tc.func "name" with
        | Option.none => .error .attributeError
        | Option.some fn =>
          match pyDictGet tc.func "arguments" with
          | Option.none => .error .attributeError
          | Option.some rawArgs =>
            match parseToolArgs jsonLoads rawArgs with
            | .error e => .error e
            | .ok args => .ok (Option.some (fn, args, tc.id))
      else if tc.typ.isStrEq "tool_use" && tc.name.truthy then
        .ok (Option.some (tc.name, tc.input, tc.id))
      else
        .ok Option.none
    match branch with
    | .error e => .error e
    | .ok Option.none => executeTools jsonLoads tools rest
    | .ok (Option.some (fn, args, callId)) =>
      if !fn.truthy then executeTools jsonLoads tools rest
      else
        match fn with
        | .str fname =>
          match tools fname with
          | Option.none => .error (.toolNotFound fname)
          | Option.some f =>
            let result := f args
            match executeTools jsonLoads tools rest with
            | .error e => .error e
            | .ok tail =>
              .ok (.dict [("role", .str "tool"), ("tool_call_id", callId),
                          ("content", .str result)] :: tail)
        | _ => .error (.toolNotFound "")

/-! ## ClaudeProvider structured-output rejection (providers/base.py,
providers/claude.py) -/

/-- Whether a kwargs dict carries a key (Python `k in kwargs`). -/
def kwargsHasKey (kwargs : List (String × PyVal)) (k : String) : Bool :=
  (lookupKV kwargs k).isSome

/-- The keyword arguments that `BaseProvider.acomplete` (providers/base.py
lines 50-59) passes to `_single_complete`: it ALWAYS forwards
`response_schema=response_schema` and `headers=headers` (even when both are
None), followed by the caller's remaining `**kwargs`. -/
def baseAcompleteKwargs (responseSchema headers : PyVal)
    (extra : List (String × PyVal)) : List (String × PyVal) :=
  ("response_schema", responseSchema) :: ("headers", headers) :: extra

/-- Result of `ClaudeProvider._single_complete`: either the
NotImplementedError raised by the structured-output check, or the request it
would otherwise issue (streaming or unary) with its payload. -/
inductive ClaudeOutcome : Type where
  | raisedNotImplemented
  | streamedRequest (payload : PyVal)
  | unaryRequest (payload : PyVal)

/-- Dict update `d[k] = v`: replaces an existing binding in place, otherwise
appends (Python dict assignment). -/
def dictSet : List (String × PyVal) → String → PyVal → List (String × PyVal)
  | [], k, v => [(k, v)]
  | (k', v') :: rest, k, v =>
    if k' = k then (k, v) :: rest else (k', v') :: dictSet rest k v

/-- Embedding of `ClaudeProvider._single_complete` (providers/claude.py lines
180-230).  `response_schema` and `headers` have no named parameter in its
signature, so both land in `**kwargs`; the guard is a key-presence test
`if "response_schema" in kwargs`, raising NotImplementedError BEFORE any HTTP
request regardless of the key's value.  `Option.none` models a KeyError
raised by the later system-message inspection. -/
def claudeSingleComplete (model : String) (messages : List PyVal)
    (stream : Bool) (tools toolChoice : PyVal)
    (kwargs : List (String × PyVal)) : Option ClaudeOutcome :=
  let maxTokens := (lookupKV kwargs "max_tokens").getD (.int 8192)
  let payload : List (String × PyVal) :=
    [("model", .str model), ("max_tokens", maxTokens), ("messages", .list messages)]
  if kwargsHasKey kwargs "response_schema" then Option.some .raisedNotImplemented
  else do
    let (payload, msgs) ←
      match messages with
      | m :: restMsgs => do
        let role ← subscr m "role"
        if role.isStrEq "system" then do
          let system ← subscr m "content"
          Option.some (dictSet (dictSet payload "system" system)
            "messages" (.list restMsgs), restMsgs)
        else Option.some (payload, messages)
      | [] => Option.some (payload, messages)
    let _ := msgs
    let payload := if tools.truthy then dictSet payload "tools" tools else payload
    let payload :=
      if toolChoice.truthy then dictSet payload "tool_choice" toolChoice else payload
    if stream then Option.some (.streamedRequest (.dict (dictSet payload "stream" (.bool true))))
    else Option.some (.unaryRequest (.dict payload))

/-! ## SSE frame decoder (utils/http.py `stream_json`, lines 135-183)

The decoder is modelled over explicit character lists.  The JSON parser
`json.loads` used on each `data:` payload is the Python standard library and
is passed as an explicit `parse` parameter of type `List Char → Option J`
(`Option.none` is a json.JSONDecodeError). -/

/-- Python `str.isspace` characters relevant to `str.strip()` (ASCII
whitespace, the C1 separators, NEL, NBSP and the Unicode space blocks). -/
def pyIsSpace (c : Char) : Bool :=
  c = ' ' || c = '\t' || c = '\n' || c = '\r' || c = '\x0b' || c = '\x0c' ||
  c = '\x1c' || c = '\x1d' || c = '\x1e' || c = '\x1f' || c = '\x85' ||
  c = '\xa0' || c = ' ' ||
  (0x2000 ≤ c.toNat && c.toNat ≤ 0x200a) ||
  c = ' ' || c = ' ' || c = ' ' || c = ' ' || c = '　'

/-- Python `str.splitlines` line-boundary characters (in addition to the
CRLF pair handled separately). -/
def pyIsLineBreak (c : Char) : Bool :=
  c = '\n' || c = '\r' || c = '\x0b' || c = '\x0c' ||
  c = '\x1c' || c = '\x1d' || c = '\x1e' ||
  c = '\x85' || c = ' ' || c = ' '

/-- Python `str.strip()`: drop leading and trailing whitespace. -/
def pyStrip (l : List Char) : List Char :=
  ((l.dropWhile pyIsSpace).reverse.dropWhile pyIsSpace).reverse

/-- Worker for `str.splitlines`: `acc` is the reversed current line,
`afterCR` records that a bare `\r` boundary was just consumed so a following
`\n` is swallowed (CRLF is one boundary). -/
def pySplitlinesGo : List Char → List Char → Bool → List (List Char)
  | [], acc, _ => if acc.isEmpty then [] else [acc.reverse]
  | c :: rest, acc, afterCR =>
    if afterCR && c = '\n' then pySplitlinesGo rest acc false
    else if pyIsLineBreak c then acc.reverse :: pySplitlinesGo rest [] (c = '\r')
    else pySplitlinesGo rest (c :: acc) false

/-- Python `str.splitlines()` (no trailing empty line for P trailing
terminator; an empty string has no lines). -/
def pySplitlines (l : List Char) : List (List Char) :=
  pySplitlinesGo l [] false

/-- The `data:` tag tested by `line.startswith("data:")`. -/
def dataTag : List Char := ['d', 'a', 't', 'a', ':']

/-- The terminal sentinel payload `[DONE]`. -/
def doneLit : List Char := ['[', 'D', 'O', 'N', 'E', ']']

/-- The per-line payload extraction of the stream_json event loop
(utils/http.py lines 156-160 and 172-176):

  line = line.strip()
  if not line: continue
  if line.startswith("data:"): data = line[len("data:"):].strip()

Returns the stripped payload of a data line, `Option.none` for blank and
non-data lines. -/
def dataPayloadOf (l : List Char) : Option (List Char) :=
  let line := pyStrip l
  if line.isEmpty then Option.none
  else if dataTag.isPrefixOf line then Option.some (pyStrip (line.drop 5))
  else Option.none

/-- The line loop shared by the in-stream event processing (utils/http.py
lines 155-167) and the end-of-stream buffer flush (lines 171-183): data
payloads equal to `[DONE]` return from the generator (second component
`true`), parseable payloads are yielded, unparseable ones silently skipped. -/
def processLines {J : Type} (parse : List Char → Option J) :
    List (List Char) → List J × Bool
  | [] => ([], false)
  | l :: ls =>
    match dataPayloadOf l with
    | Option.none => processLines parse ls
    | Option.some data =>
      if data = doneLit then ([], true)
      else
        match parse data with
        | Option.some j =>
          let r := processLines parse ls
          (j :: r.1, r.2)
        | Option.none => processLines parse ls

/-- Python `buffer.split("\n\n", 1)` guarded by `"\n\n" in buffer`: the text
before the FIRST double newline and the remainder, or `Option.none` when
there is no double newline. -/
def findEventSplit : List Char → Option (List Char × List Char)
  | [] => Option.none
  | [_] => Option.none
  | c :: d :: rest =>
    if c = '\n' ∧ d = '\n' then Option.some ([], rest)
    else (findEventSplit (d :: rest)).map fun p => (c :: p.1, p.2)

/-- State of the stream_json generator between chunk arrivals: either the
generator has returned (a `[DONE]` line was consumed), or it holds the
residual text buffer. -/
inductive BufState : Type where
  | done
  | buf (b : List Char)
deriving DecidableEq

/-- The inner `while "\n\n" in buffer:` loop of stream_json (utils/http.py
lines 153-167): repeatedly split off the first complete event, run the line
loop on it, and stop for good when a `[DONE]` line is consumed.  `fuel`
bounds the iteration count and is always at least the buffer length. -/
def drainAux {J : Type} (parse : List Char → Option J) :
    Nat → List Char → List J × BufState
  | 0, b => ([], .buf b)
  | fuel + 1, b =>
    match findEventSplit b with
    | Option.none => ([], .buf b)
    | Option.some (event, rest) =>
      let p := processLines parse (pySplitlines event)
      if p.2 then (p.1, .done)
      else
        let r := drainAux parse fuel rest
        (p.1 ++ r.1, r.2)

/-- The drain loop at its natural fuel. -/
def drain {J : Type} (parse : List Char → Option J) (b : List Char) :
    List J × BufState :=
  drainAux parse b.length b

/-- The outer `async for raw_chunk in response.read_chunks():` loop of
stream_json (lines 138-167) at the text level: falsy (empty) chunks are
skipped, others are appended to the buffer which is then drained; once the
generator has returned, remaining chunks are never consumed. -/
def feedChunks {J : Type} (parse : List Char → Option J) :
    List (List Char) → BufState → List J × BufState
  | [], st => ([], st)
  | c :: cs, st =>
    match st with
    | .done => ([], .done)
    | .buf b =>
      if c.isEmpty then feedChunks parse cs (.buf b)
      else
        let d := drain parse (b ++ c)
        let r := feedChunks parse cs d.2
        (d.1 ++ r.1, r.2)

/-- The whole SSE decode of stream_json over already-decoded text chunks,
including the end-of-stream flush of the residual buffer (utils/http.py lines
169-183), whose line loop is identical to the in-stream one. -/
def sseDecodeText {J : Type} (parse : List Char → Option J)
    (chunks : List (List Char)) : List J :=
  let f := feedChunks parse chunks (.buf [])
  match f.2 with
  | .done => f.1
  | .buf b => if b.isEmpty then f.1 else f.1 ++ (processLines parse (pySplitlines b)).1

/-! ## Byte-level chunk decoding (utils/http.py lines 142-148)

Each raw byte chunk is decoded with `raw_chunk.decode("utf-8")`, falling back
to the byte-preserving `raw_chunk.decode("latin-1")` when strict UTF-8
decoding fails.  Bytes are embedded as naturals below 256. -/

/-- Whether a byte is a UTF-8 continuation byte `10xxxxxx`. -/
def isContByte (b : Nat) : Bool := 0x80 ≤ b && b < 0xc0

/-- Strict decoding of one UTF-8 scalar from the front of a byte list,
rejecting truncated sequences, stray continuation bytes, overlong forms,
surrogates and out-of-range code points (CPython's strict utf-8 codec). -/
def utf8DecodeOne : List Nat → Option (Char × List Nat)
  | [] => Option.none
  | b0 :: rest =>
    if b0 < 0x80 then Option.some (Char.ofNat b0, rest)
    else if b0 < 0xc2 then Option.none
    else if b0 < 0xe0 then
      match rest with
      | b1 :: r =>
        if isContByte b1 then
          Option.some (Char.ofNat ((b0 - 0xc0) * 0x40 + (b1 - 0x80)), r)
        else Option.none
      | [] => Option.none
    else if b0 < 0xf0 then
      match rest with
      | b1 :: b2 :: r =>
        if isContByte b1 && isContByte b2 then
          let cp := (b0 - 0xe0) * 0x1000 + (b1 - 0x80) * 0x40 + (b2 - 0x80)
          if cp < 0x800 || (0xd800 ≤ cp && cp < 0xe000) then Option.none
          else Option.some (Char.ofNat cp, r)
        else Option.none
      | _ => Option.none
    else if b0 < 0xf5 then
      match rest with
      | b1 :: b2 :: b3 :: r =>
        if isContByte b1 && isContByte b2 && isContByte b3 then
          let cp := (b0 - 0xf0) * 0x40000 + (b1 - 0x80) * 0x1000 +
            (b2 - 0x80) * 0x40 + (b3 - 0x80)
          if cp < 0x10000 || 0x110000 ≤ cp then Option.none
          else Option.some (Char.ofNat cp, r)
        else Option.none
      | _ => Option.none
    else Option.none

/-- Fueled strict UTF-8 decode of a whole byte list. -/
def utf8DecodeAux : Nat → List Nat → Option (List Char)
  | _, [] => Option.some []
  | 0, _ :: _ => Option.none
  | fuel + 1, l =>
    match utf8DecodeOne l with
    | Option.none => Option.none
    | Option.some (c, r) => (utf8DecodeAux fuel r).map fun cs => c :: cs

/-- `bytes.decode("utf-8")`: `Option.none` is a UnicodeDecodeError. -/
def utf8Decode (l : List Nat) : Option (List Char) :=
  utf8DecodeAux l.length l

/-- `bytes.decode("latin-1")`: every byte maps to the code point of the same
value, never failing. -/
def latin1Decode (l : List Nat) : List Char :=
  l.map Char.ofNat

/-- The chunk text of stream_json lines 142-148: UTF-8, with latin-1
fallback on decode failure. -/
def decodeChunkText (l : List Nat) : List Char :=
  match utf8Decode l with
  | Option.some t => t
  | Option.none => latin1Decode l

/-- Concatenation of a list of lists (the unsplit byte sequence / text). -/
def joinAll {α : Type} : List (List α) → List α
  | [] => []
  | l :: ls => l ++ joinAll ls

/-- The whole SSE decode of stream_json over raw byte chunks: each chunk is
decoded to text (UTF-8 with latin-1 fallback) exactly as it arrives, then
fed through the buffer loop.  An empty byte chunk is skipped by
`if not raw_chunk: continue`; its decoded text is empty, so the text-level
skip coincides with the byte-level one. -/
def sseDecodeBytes {J : Type} (parse : List Char → Option J)
    (chunks : List (List Nat)) : List J :=
  sseDecodeText parse (chunks.map decodeChunkText)

/-- The terminal-sentinel event `data: [DONE]` followed by its event
separator, as a text fragment. -/
def doneChunk : List Char :=
  dataTag ++ [' '] ++ doneLit ++ ['\n', '\n']

/-- A `data: <payload>` line with its event separator. -/
def dataLineOf (payload : List Char) : List Char :=
  dataTag ++ [' '] ++ payload ++ ['\n', '\n']

/-- The end-of-stream flush of stream_json (utils/http.py lines 169-183)
applied to the generator state left by the chunk loop: a returned generator
flushes nothing, a residual nonempty buffer is run through the same line loop
(its `[DONE]`-return needs no separate modelling of the state because nothing
follows the flush). -/
def flushTail {J : Type} (parse : List Char → Option J) : BufState → List J
  | .done => []
  | .buf b => if b.isEmpty then [] else (processLines parse (pySplitlines b)).1

/-- The full decode of a single text chunk: the in-stream event loop followed
by the end-of-stream flush.  `sseDecodeText parse [t]` computes exactly this
(proved below), which reduces whole-stream reasoning to buffer reasoning. -/
def drainFlush {J : Type} (parse : List Char → Option J) (b : List Char) :
    List J :=
  (drain parse b).1 ++ flushTail parse (drain parse b).2

/-- The opening characters of a Claude-style stream-chunk JSON object with a
single delta.text string field (braces as their code points). -/
def deltaOpen : List Char :=
  ['\x7b', '"', 'd', 'e', 'l', 't', 'a', '"', ':',
   '\x7b', '"', 't', 'e', 'x', 't', '"', ':', '"']

/-- The closing characters of such an object: a quote and two braces. -/
def deltaClose : List Char := ['"', '\x7d', '\x7d']

/-- `json.loads` restricted to the JSON texts of the exact shape
`deltaOpen ++ s ++ deltaClose` whose string content `s` is escape-free (no
quote, no backslash, no control character) — on these texts this agrees with
`json.loads`, which yields the object with the single nested string field
`s`; the JSON string grammar admits every other Unicode character verbatim,
so no escape processing arises.  Texts outside this fragment are mapped to
`Option.none`; the counterexample below only ever invokes the parser on
texts inside the fragment, so every invocation matches `json.loads`. -/
def jsonLoadsDelta (l : List Char) : Option PyVal :=
  if deltaOpen.isPrefixOf l ∧ deltaClose.isSuffixOf l ∧
      deltaOpen.length + deltaClose.length ≤ l.length ∧
      ∀ c ∈ (l.drop deltaOpen.length).take
          (l.length - (deltaOpen.length + deltaClose.length)),
        c ≠ '"' ∧ c ≠ '\\' ∧ 0x20 ≤ c.toNat
  then Option.some (.dict [("delta", .dict [("text",
    .str (String.mk ((l.drop deltaOpen.length).take
      (l.length - (deltaOpen.length + deltaClose.length)))))])])
  else Option.none

/-- The claude branch of parse_stream_chunk (utils/http.py lines 206-212):
`content = chunk.get("delta", \x7b\x7d).get("text")` wrapped in a
try/except, then `StreamChunk(content, chunk)`.  Returns the extracted text
when it is a string; `Option.none` covers a raised lookup error (caught,
chunk dropped) and a missing or non-string content (a StreamChunk whose
content is null). -/
def claudeChunkContent (chunk : PyVal) : Option (List Char) :=
  match pyDictGetD chunk "delta" (.dict []) with
  | Option.some d =>
    match pyDictGet d "text" with
    | Option.some (.str s) => Option.some s.toList
    | _ => Option.none
  | Option.none => Option.none

/-- The UTF-8 bytes of the well-formed SSE event `data: ` followed by the
JSON object with delta.text value é and the double-newline separator; the é
is the two bytes 195 169 at positions 24 and 25. -/
def sseDeltaBytes : List Nat :=
  [100, 97, 116, 97, 58, 32,
   123, 34, 100, 101, 108, 116, 97, 34, 58,
   123, 34, 116, 101, 120, 116, 34, 58, 34,
   195, 169,
   34, 125, 125,
   10, 10]

/-! ## Helper lemmas -/

theorem streamContentChunks_eq (chunks : List StreamChunkM) :
    streamContentChunks chunks
      = (chunks.filterMap StreamChunkM.content).filter fun s => !s.isEmpty := by
  induction chunks with
  | nil => rfl
  | cons ch rest ih =>
    cases hc : ch.content with
    | none => simp [streamContentChunks, List.filterMap_cons, hc] at ih ⊢; exact ih
    | some s =>
      cases hs : s.isEmpty <;>
        simp [streamContentChunks, List.filterMap_cons, List.filter_cons, hc, hs] at ih ⊢ <;>
        exact ih

theorem filter_nonempty_all (l : List String) :
    (l.filter fun s => !s.isEmpty).all (fun s => !s.isEmpty) = true := by
  induction l with
  | nil => rfl
  | cons s rest ih =>
    cases hs : s.isEmpty <;> simp [List.filter_cons, hs, ih]

/-! ## Claim theorems -/

/-- C10: for every sequence of StreamChunk values, `Response.stream_content`
yields, in order, exactly the chunk contents that are Python-truthy: both
None contents and empty-string contents are filtered out, so it never yields
an empty string. -/
theorem C10_stream_content_truthy_filter (orig : PyVal) (prov : String)
    (chunks : List StreamChunkM) :
    responseStreamContent
        { original := orig, provider_name := prov, stream := .bool true
          stream_generator := Option.some chunks, main_response := Option.none }
      = ((chunks.filterMap StreamChunkM.content).filter fun s => !s.isEmpty) ∧
    (responseStreamContent
        { original := orig, provider_name := prov, stream := .bool true
          stream_generator := Option.some chunks, main_response := Option.none }).all
      (fun s => !s.isEmpty) = true := by
  have h1 : responseStreamContent
      { original := orig, provider_name := prov, stream := .bool true
        stream_generator := Option.some chunks, main_response := Option.none }
      = streamContentChunks chunks := by
    simp [responseStreamContent, StreamFlagV.truthy]
  refine ⟨?_, ?_⟩
  · rw [h1, streamContentChunks_eq]
  · rw [h1, streamContentChunks_eq]
    exact filter_nonempty_all _

/-- C9: every call of `ClaudeProvider.acomplete` reaching
`_single_complete` with the keyword arguments assembled by
`BaseProvider.acomplete` raises NotImplementedError before any HTTP request,
because the `response_schema` key is always present in kwargs (even when its
value is Python None) and the claude guard tests key presence only. -/
theorem C9_claude_acomplete_always_raises (model : String) (messages : List PyVal)
    (stream : Bool) (tools toolChoice responseSchema headersV : PyVal)
    (extra : List (String × PyVal)) :
    claudeSingleComplete model messages stream tools toolChoice
        (baseAcompleteKwargs responseSchema headersV extra)
      = Option.some ClaudeOutcome.raisedNotImplemented := by
  simp [claudeSingleComplete, baseAcompleteKwargs, kwargsHasKey, lookupKV]

/-- C2: evaluation of the google unary completion at the vendor body used by
test_google_acomplete_non_stream_success.  Because `_single_complete` passes
the parsed MainResponse as the third POSITIONAL Response argument, it lands in
the `stream` slot: the constructed Response has a truthy non-bool `stream`,
`main_response = None` and `stream_generator = None`, so neither a populated
main response nor a non-null stream generator holds and the streaming flag is
not even a bool: the claimed invariant is violated (and the test assertions
`not result.stream` / `result.main_response is not None` fail). -/
theorem C2_google_unary_invariant_violated :
    ∃ r : ResponseM,
      googleUnaryComplete
          (.dict [("candidates", .list [.dict [("content",
            .dict [("parts", .list [.dict [("text", .str "Hello!")]])])]])])
        = Option.some r ∧
      r.stream.truthy = true ∧
      r.main_response = Option.none ∧
      r.stream_generator = Option.none ∧
      ∀ b : Bool, r.stream ≠ StreamFlagV.bool b := by
  refine ⟨_, rfl, rfl, rfl, rfl, ?_⟩
  intro b h
  exact StreamFlagV.noConfusion h

/-- C5 counterexample: the OpenAI Chat unary normalizer applied to a body
whose `choices[0].message` has no content key produces a canonical content of
Python None, not the empty string. -/
theorem C5_counterexample :
    (openaiExtractMain
        (.dict [("choices", .list [.dict [("message", .dict [])]])])).map
        MainResponseM.content
      = Option.some PyVal.none ∧
    Option.some PyVal.none ≠ Option.some (PyVal.str "") := by
  refine ⟨rfl, ?_⟩
  intro h
  cases h


/-- C5 amended: the OpenAI Chat unary normalizer preserves a missing/None
`choices[0].message.content` as Python None (it does not coerce it to the
empty string), and the Claude and Google unary normalizers never produce an
empty-string content: an empty extracted text becomes Python None. -/
theorem C5_amended :
    (∀ (original choices c0 message : PyVal) (mr : MainResponseM),
       subscr original "choices" = Option.some choices →
       idx choices 0 = Option.some c0 →
       subscr c0 "message" = Option.some message →
       pyDictGet message "content" = Option.some PyVal.none →
       openaiExtractMain original = Option.some mr →
       mr.content = PyVal.none) ∧
    (∀ (original : PyVal) (mr : MainResponseM),
       claudeExtractMain original = Option.some mr →
       mr.content ≠ PyVal.str "") ∧
    (∀ (original : PyVal) (mr : MainResponseM),
       googleExtractMain original = Option.some mr →
       mr.content ≠ PyVal.str "") := by
  refine ⟨?_, ?_, ?_⟩
  · intro original choices c0 message mr h1 h2 h3 h4 h5
    simp only [openaiExtractMain, h1, h2, h3, h4, Option.bind_eq_bind, Option.some_bind,
      Option.pure_def] at h5
    cases htc : pyDictGet message "tool_calls" with
    | none => rw [htc] at h5; simp at h5
    | some tcData =>
      rw [htc] at h5
      simp only [Option.some_bind] at h5
      by_cases htr : tcData.truthy = true
      · rw [if_pos htr] at h5
        cases tcData with
        | list items =>
          dsimp only at h5
          cases hl : openaiToolCalls items with
          | none => rw [hl] at h5; simp at h5
          | some l =>
            rw [hl] at h5
            simp only [Option.map_some', Option.some_bind, Option.some.injEq] at h5
            rw [← h5]
        | str s => simp at h5
        | int n => simp at h5
        | bool b => simp at h5
        | none => simp at h5
        | dict kvs => simp at h5
      · rw [if_neg htr] at h5
        simp only [Option.some_bind, Option.some.injEq] at h5
        rw [← h5]
  · intro original mr h
    cases hb : subscr original "content" with
    | none => simp [claudeExtractMain, hb] at h
    | some blocks =>
      simp only [claudeExtractMain, hb, Option.bind_eq_bind, Option.some_bind,
        Option.pure_def] at h
      cases blocks with
      | list items =>
        simp only [Option.some_bind] at h
        cases hf : claudeFold items with
        | none => rw [hf] at h; simp at h
        | some p =>
          rw [hf] at h
          obtain ⟨text, calls⟩ := p
          simp only [Option.some_bind, Option.some.injEq] at h
          rw [← h]
          by_cases ht : text = ""
          · simp only [ht, if_pos]
            exact fun heq => PyVal.noConfusion heq
          · simp only [if_neg ht]
            intro heq
            injection heq with h'
            exact ht h'
      | str s => simp at h
      | int n => simp at h
      | bool b => simp at h
      | none => simp at h
      | dict kvs => simp at h
  · intro original mr h
    cases original with
    | dict kvs =>
      have hev : pyDictGetD (PyVal.dict kvs) "candidates" (.list [])
          = Option.some ((lookupKV kvs "candidates").getD (.list [])) := rfl
      simp only [googleExtractMain, hev, Option.bind_eq_bind, Option.some_bind,
        Option.pure_def] at h
      by_cases hc : ((lookupKV kvs "candidates").getD (PyVal.list [])).truthy = true
      · simp only [hc, Bool.not_true, Bool.false_eq_true, if_false] at h
        cases hcand : idx ((lookupKV kvs "candidates").getD (PyVal.list [])) 0 with
        | none => rw [hcand] at h; simp at h
        | some cand =>
          rw [hcand] at h
          simp only [Option.some_bind] at h
          cases hcd : pyDictGetD cand "content" (.dict []) with
          | none => rw [hcd] at h; simp at h
          | some contentData =>
            rw [hcd] at h
            simp only [Option.some_bind] at h
            cases hp : pyDictGetD contentData "parts" (.list []) with
            | none => rw [hp] at h; simp at h
            | some parts =>
              rw [hp] at h
              simp only [Option.some_bind] at h
              cases parts with
              | list items =>
                simp only [Option.some_bind] at h
                cases hf : googleFold 0 items with
                | none => rw [hf] at h; simp at h
                | some p =>
                  rw [hf] at h
                  obtain ⟨text, calls⟩ := p
                  simp only [Option.some_bind, Option.some.injEq] at h
                  rw [← h]
                  by_cases ht : text = ""
                  · simp only [ht, if_pos]
                    exact fun heq => PyVal.noConfusion heq
                  · simp only [if_neg ht]
                    intro heq
                    injection heq with h'
                    exact ht h'
              | str s => simp at h
              | int n => simp at h
              | bool b => simp at h
              | none => simp at h
              | dict kvs2 => simp at h
      · have hc' : (!((lookupKV kvs "candidates").getD (PyVal.list [])).truthy) = true := by
          simp only [Bool.not_eq_true'] at hc ⊢
          exact Bool.not_eq_true _ ▸ (by simpa using hc)
        simp only [hc', if_true, Option.some.injEq] at h
        rw [← h]
        exact fun heq => PyVal.noConfusion heq
    | str s => simp [googleExtractMain, pyDictGetD] at h
    | int n => simp [googleExtractMain, pyDictGetD] at h
    | bool b => simp [googleExtractMain, pyDictGetD] at h
    | none => simp [googleExtractMain, pyDictGetD] at h
    | list xs => simp [googleExtractMain, pyDictGetD] at h

/-- C4 counterexample: a ToolCall whose `function.arguments` is a string that
fails to parse as JSON makes the whole execution raise the JSON decode error
(`json.loads` is called with no exception handler); the arguments are NOT
replaced by an empty mapping and execution does not proceed. -/
theorem C4_counterexample :
    executeTools (fun s => if s = "ok" then Option.some (.dict []) else Option.none)
        (fun n => if n = "f" then Option.some (fun _ => "res") else Option.none)
        [{ id := .str "call_1", typ := .str "function", name := .none, input := .none,
           func := .dict [("name", .str "f"), ("arguments", .str "not valid json")] }]
      = .error ToolExecErr.jsonDecodeError ∧
    ∀ results : List PyVal,
      (Except.error ToolExecErr.jsonDecodeError : Except ToolExecErr (List PyVal))
        ≠ Except.ok results := by
  refine ⟨rfl, ?_⟩
  intro results h
  cases h

/-- C4 amended: only an arguments value that is neither a string nor a
mapping is replaced by the empty mapping (and execution then proceeds,
invoking the tool with empty arguments); a string arguments value that fails
JSON parsing raises the decode error instead. -/
theorem C4_amended (jsonLoads : String → Option PyVal) (args : PyVal)
    (hstr : ∀ s, args ≠ PyVal.str s) (hdict : ∀ kvs, args ≠ PyVal.dict kvs) :
    parseToolArgs jsonLoads args = .ok (PyVal.dict []) ∧
    (∀ s, jsonLoads s = Option.none →
       parseToolArgs jsonLoads (PyVal.str s) = .error ToolExecErr.jsonDecodeError) ∧
    (∀ (tools : String → Option (PyVal → String)) (f : PyVal → String) (fname cid : String),
       fname.isEmpty = false → tools fname = Option.some f →
       executeTools jsonLoads tools
           [{ id := .str cid, typ := .str "function", name := .none, input := .none,
              func := .dict [("name", .str fname), ("arguments", args)] }]
         = .ok [.dict [("role", .str "tool"), ("tool_call_id", .str cid),
                       ("content", .str (f (.dict [])))]]) := by
  have hargs : parseToolArgs jsonLoads args = .ok (PyVal.dict []) := by
    cases args with
    | str s => exact absurd rfl (hstr s)
    | dict kvs => exact absurd rfl (hdict kvs)
    | int n => rfl
    | bool b => rfl
    | none => rfl
    | list xs => rfl
  refine ⟨hargs, ?_, ?_⟩
  · intro s hs
    simp [parseToolArgs, hs]
  · intro tools f fname cid hn htl
    simp [executeTools, PyVal.isStrEq, PyVal.truthy, pyDictGet, lookupKV, hargs, htl, hn]

/-- C4 amended, witness: instantiation at an integer arguments value and a
one-entry tool table. -/
theorem C4_amended_witness :
    parseToolArgs (fun _ => Option.none) (PyVal.int 5) = .ok (PyVal.dict []) ∧
    parseToolArgs (fun _ => Option.none) (PyVal.str "oops")
      = .error ToolExecErr.jsonDecodeError ∧
    executeTools (fun _ => Option.none)
        (fun n => if n = "f" then Option.some (fun _ => "res") else Option.none)
        [{ id := .str "c1", typ := .str "function", name := .none, input := .none,
           func := .dict [("name", .str "f"), ("arguments", PyVal.int 5)] }]
      = .ok [.dict [("role", .str "tool"), ("tool_call_id", .str "c1"),
                    ("content", .str "res")]] := by
  have h := C4_amended (fun _ => Option.none) (PyVal.int 5)
    (fun s h => PyVal.noConfusion h) (fun kvs h => PyVal.noConfusion h)
  exact ⟨h.1, h.2.1 "oops" rfl,
    h.2.2 (fun n => if n = "f" then Option.some (fun _ => "res") else Option.none)
      (fun _ => "res") "f" "c1" rfl rfl⟩

/-! ## Retry helper lemmas -/

theorem retryHttpGo_succ {α : Type} (cfg : RetryCfg) (op : Nat → Except HttpFailure α)
    (attempt fuel : Nat) :
    retryHttpGo cfg op attempt (fuel + 1)
      = match op attempt with
        | .ok v => (.ok v, 1)
        | .error e =>
          if shouldRetry cfg e = false ∨ attempt = cfg.max_attempts - 1 then
            (.error (.exc e), 1)
          else
            ((retryHttpGo cfg op (attempt + 1) fuel).1,
             (retryHttpGo cfg op (attempt + 1) fuel).2 + 1) := rfl

theorem retryHttpGo_count_le {α : Type} (cfg : RetryCfg) (op : Nat → Except HttpFailure α) :
    ∀ (fuel attempt : Nat), (retryHttpGo cfg op attempt fuel).2 ≤ fuel := by
  intro fuel
  induction fuel with
  | zero => intro attempt; simp [retryHttpGo]
  | succ f ih =>
    intro attempt
    rw [retryHttpGo_succ]
    cases hoe : op attempt with
    | ok v => simp
    | error e =>
      dsimp only
      by_cases hif : shouldRetry cfg e = false ∨ attempt = cfg.max_attempts - 1
      · rw [if_pos hif]
        omega
      · rw [if_neg hif]
        have := ih (attempt + 1)
        dsimp only
        omega

theorem retryHttpGo_allfail {α : Type} (cfg : RetryCfg) (op : Nat → Except HttpFailure α)
    (hop : ∀ i, ∃ e, op i = .error e ∧ shouldRetry cfg e = true) :
    ∀ (fuel attempt : Nat), attempt + fuel = cfg.max_attempts → 1 ≤ fuel →
      (retryHttpGo cfg op attempt fuel).2 = fuel ∧
      ∃ e, (retryHttpGo cfg op attempt fuel).1 = .error (.exc e) := by
  intro fuel
  induction fuel with
  | zero => intro attempt _ h1; omega
  | succ f ih =>
    intro attempt hsum _
    obtain ⟨e, hoe, hre⟩ := hop attempt
    cases f with
    | zero =>
      have hlast : attempt = cfg.max_attempts - 1 := by omega
      rw [retryHttpGo_succ, hoe]
      dsimp only
      rw [if_pos (Or.inr hlast)]
      exact ⟨rfl, e, rfl⟩
    | succ f' =>
      have hnotlast : ¬ attempt = cfg.max_attempts - 1 := by omega
      have hcond : ¬ (shouldRetry cfg e = false ∨ attempt = cfg.max_attempts - 1) := by
        intro hor
        cases hor with
        | inl h => rw [hre] at h; cases h
        | inr h => exact hnotlast h
      rw [retryHttpGo_succ, hoe]
      dsimp only
      rw [if_neg hcond]
      have := ih (attempt + 1) (by omega) (by omega)
      exact ⟨by dsimp only; omega, this.2⟩

/-- C3: with `max_attempts = N ≥ 1`, a permanently failing retryable
operation is invoked exactly N times and the final failure is raised; a
non-retryable failure on the first attempt is raised after exactly 1
invocation; and no operation is ever invoked more than N times (a failure on
the last allowed attempt is never retried). -/
theorem C3_retry_bound {α : Type} (cfg : RetryCfg) (N : Nat)
    (op : Nat → Except HttpFailure α) (hN : cfg.max_attempts = N) (h1 : 1 ≤ N) :
    ((∀ i, ∃ e, op i = .error e ∧ shouldRetry cfg e = true) →
       (retryHttp cfg op).2 = N ∧ ∃ e, (retryHttp cfg op).1 = .error (.exc e)) ∧
    (∀ e, op 0 = .error e → shouldRetry cfg e = false →
       retryHttp cfg op = (.error (.exc e), 1)) ∧
    (retryHttp cfg op).2 ≤ N := by
  refine ⟨?_, ?_, ?_⟩
  · intro hop
    have := retryHttpGo_allfail cfg op hop cfg.max_attempts 0 (by omega) (by omega)
    simp only [retryHttp]
    rw [hN] at this ⊢
    exact this
  · intro e hoe hre
    simp only [retryHttp]
    have hfuel : cfg.max_attempts = (cfg.max_attempts - 1) + 1 := by omega
    rw [hfuel, retryHttpGo_succ, hoe]
    dsimp only
    rw [if_pos (Or.inl hre)]
  · have := retryHttpGo_count_le cfg op cfg.max_attempts 0
    simp only [retryHttp]
    rw [hN] at this ⊢
    exact this

/-- Witness for C3 at `max_attempts = 2`: an always-retryable-failing operation
is invoked exactly twice, and a non-retryable failure is raised after one
invocation. -/
theorem C3_retry_bound_witness :
    (retryHttp ⟨2, 1, 10, 2, [], false⟩
        (fun _ => (Except.error ⟨true, Option.none⟩ : Except HttpFailure Nat))).2 = 2 ∧
    retryHttp ⟨2, 1, 10, 2, [], false⟩
        (fun _ => (Except.error ⟨false, Option.none⟩ : Except HttpFailure Nat))
      = (.error (.exc ⟨false, Option.none⟩), 1) := by
  constructor
  · exact ((C3_retry_bound ⟨2, 1, 10, 2, [], false⟩ 2
      (fun _ => (Except.error ⟨true, Option.none⟩ : Except HttpFailure Nat)) rfl
      (by decide)).1 (fun i => ⟨⟨true, Option.none⟩, rfl, rfl⟩)).1
  · exact (C3_retry_bound ⟨2, 1, 10, 2, [], false⟩ 2
      (fun _ => (Except.error ⟨false, Option.none⟩ : Except HttpFailure Nat)) rfl
      (by decide)).2.1 ⟨false, Option.none⟩ rfl rfl

/-- C8 counterexample: the claim quantifies over every RetryConfig with
backoff multiplier at least 1, but with a negative `max_delay` and jitter
enabled the realized delay `min(base*backoff^attempt, max_delay) * j` EXCEEDS
`max_delay` (at `base_delay = 1`, `backoff = 1`, `max_delay = -1`, attempt 0
and jitter factor 1/2 the delay is -1/2 > -1). -/
theorem C8_counterexample :
    (1 : ℚ) ≤ (⟨3, 1, -1, 1, [], true⟩ : RetryCfg).backoff_factor ∧
    (1 / 2 : ℚ) ≤ 1 / 2 ∧ (1 / 2 : ℚ) ≤ 1 ∧
    ¬ delayFor ⟨3, 1, -1, 1, [], true⟩ 0 (1 / 2)
        ≤ (⟨3, 1, -1, 1, [], true⟩ : RetryCfg).max_delay := by
  refine ⟨by norm_num, by norm_num, by norm_num, ?_⟩
  simp only [delayFor]
  norm_num

/-- C8 amended: for every RetryConfig with nonnegative `max_delay` and
backoff multiplier at least 1, every attempt index and every jitter factor in
[1/2, 1], the computed backoff delay never exceeds `max_delay`. -/
theorem C8_amended (cfg : RetryCfg) (attempt : Nat) (j : ℚ)
    (hmd : 0 ≤ cfg.max_delay) (_hbf : 1 ≤ cfg.backoff_factor)
    (hj1 : 1 / 2 ≤ j) (hj2 : j ≤ 1) :
    delayFor cfg attempt j ≤ cfg.max_delay := by
  have hj0 : 0 ≤ j := le_trans (by norm_num) hj1
  simp only [delayFor]
  by_cases hjit : cfg.jitter
  · rw [if_pos hjit]
    rcases le_or_lt (min (cfg.base_delay * cfg.backoff_factor ^ attempt) cfg.max_delay) 0 with
      hmin | hmin
    · exact le_trans (mul_nonpos_of_nonpos_of_nonneg hmin hj0) hmd
    · calc min (cfg.base_delay * cfg.backoff_factor ^ attempt) cfg.max_delay * j
          ≤ min (cfg.base_delay * cfg.backoff_factor ^ attempt) cfg.max_delay * 1 := by
            exact mul_le_mul_of_nonneg_left hj2 (le_of_lt hmin)
        _ = min (cfg.base_delay * cfg.backoff_factor ^ attempt) cfg.max_delay := mul_one _
        _ ≤ cfg.max_delay := min_le_right _ _
  · rw [if_neg hjit]
    exact min_le_right _ _

/-- C8 amended, witness: the default-like config at attempt 1 with jitter
factor 3/4. -/
theorem C8_amended_witness :
    (0 : ℚ) ≤ (60 : ℚ) ∧ (1 : ℚ) ≤ (2 : ℚ) ∧
    delayFor ⟨3, 1, 60, 2, [429, 500, 502, 503, 504], true⟩ 1 (3 / 4) ≤ 60 := by
  refine ⟨by norm_num, by norm_num, ?_⟩
  exact C8_amended ⟨3, 1, 60, 2, [429, 500, 502, 503, 504], true⟩ 1 (3 / 4)
    (by norm_num) (by norm_num) (by norm_num) (by norm_num)

/-! ## SSE decoder helper lemmas -/

theorem findEventSplit_decomp :
    ∀ (b e r : List Char), findEventSplit b = Option.some (e, r) →
      b = e ++ '\n' :: '\n' :: r := by
  intro b
  induction b with
  | nil => intro e r h; simp [findEventSplit] at h
  | cons c rest ih =>
    intro e r h
    cases rest with
    | nil => simp [findEventSplit] at h
    | cons d rest' =>
      by_cases hcd : c = '\n' ∧ d = '\n'
      · rw [findEventSplit, if_pos hcd] at h
        simp only [Option.some.injEq, Prod.mk.injEq] at h
        obtain ⟨he, hr⟩ := h
        subst he
        subst hr
        simp [hcd.1, hcd.2]
      · rw [findEventSplit, if_neg hcd] at h
        cases hm : findEventSplit (d :: rest') with
        | none => rw [hm] at h; simp at h
        | some p =>
          obtain ⟨e', r'⟩ := p
          rw [hm] at h
          simp only [Option.map_some', Option.some.injEq, Prod.mk.injEq] at h
          obtain ⟨he, hr⟩ := h
          subst he
          subst hr
          have := ih e' r' hm
          rw [List.cons_append, ← this]

theorem findEventSplit_len {b e r : List Char}
    (h : findEventSplit b = Option.some (e, r)) : r.length + 2 ≤ b.length := by
  have := findEventSplit_decomp b e r h
  subst this
  simp

theorem findEventSplit_append :
    ∀ (b y e r : List Char), findEventSplit b = Option.some (e, r) →
      findEventSplit (b ++ y) = Option.some (e, r ++ y) := by
  intro b
  induction b with
  | nil => intro y e r h; simp [findEventSplit] at h
  | cons c rest ih =>
    intro y e r h
    cases rest with
    | nil => simp [findEventSplit] at h
    | cons d rest' =>
      by_cases hcd : c = '\n' ∧ d = '\n'
      · rw [findEventSplit, if_pos hcd] at h
        simp only [Option.some.injEq, Prod.mk.injEq] at h
        obtain ⟨he, hr⟩ := h
        subst he
        subst hr
        show findEventSplit (c :: d :: (rest' ++ y)) = _
        rw [findEventSplit, if_pos hcd]
      · rw [findEventSplit, if_neg hcd] at h
        cases hm : findEventSplit (d :: rest') with
        | none => rw [hm] at h; simp at h
        | some p =>
          obtain ⟨e', r'⟩ := p
          rw [hm] at h
          simp only [Option.map_some', Option.some.injEq, Prod.mk.injEq] at h
          obtain ⟨he, hr⟩ := h
          subst he
          subst hr
          show findEventSplit (c :: d :: (rest' ++ y)) = _
          rw [findEventSplit, if_neg hcd]
          have h2 := ih y e' r' hm
          rw [List.cons_append] at h2
          rw [h2]
          rfl

theorem findEventSplit_isSome :
    ∀ (q t : List Char), (findEventSplit (q ++ '\n' :: '\n' :: t)).isSome = true := by
  intro q
  induction q with
  | nil =>
    intro t
    show (findEventSplit ('\n' :: '\n' :: t)).isSome = true
    rw [findEventSplit, if_pos ⟨rfl, rfl⟩]
    rfl
  | cons c q' ih =>
    intro t
    have hrec := ih t
    show (findEventSplit (c :: (q' ++ '\n' :: '\n' :: t))).isSome = true
    cases hq : q' ++ '\n' :: '\n' :: t with
    | nil => cases q' <;> simp at hq
    | cons d rest' =>
      rw [hq] at hrec
      by_cases hcd : c = '\n' ∧ d = '\n'
      · rw [findEventSplit, if_pos hcd]; rfl
      · rw [findEventSplit, if_neg hcd]
        cases hm : findEventSplit (d :: rest') with
        | none => rw [hm] at hrec; simp at hrec
        | some p => rfl

theorem findEventSplit_noNl :
    ∀ (p t : List Char), (∀ ch ∈ p, ch ≠ '\n') →
      findEventSplit (p ++ '\n' :: '\n' :: t) = Option.some (p, t) := by
  intro p
  induction p with
  | nil =>
    intro t _
    show findEventSplit ('\n' :: '\n' :: t) = _
    rw [findEventSplit, if_pos ⟨rfl, rfl⟩]
  | cons c p' ih =>
    intro t hp
    have hc : c ≠ '\n' := hp c (List.mem_cons_self c p')
    have hp' : ∀ ch ∈ p', ch ≠ '\n' := fun ch hch => hp ch (List.mem_cons_of_mem c hch)
    have hrec := ih t hp'
    show findEventSplit (c :: (p' ++ '\n' :: '\n' :: t)) = _
    cases hq : p' ++ '\n' :: '\n' :: t with
    | nil => cases p' <;> simp at hq
    | cons d rest' =>
      rw [hq] at hrec
      have hcd : ¬ (c = '\n' ∧ d = '\n') := fun hand => hc hand.1
      rw [findEventSplit, if_neg hcd, hrec]
      rfl

theorem drainAux_congr {J : Type} (parse : List Char → Option J) :
    ∀ (f1 f2 : Nat) (b : List Char), b.length ≤ f1 → b.length ≤ f2 →
      drainAux parse f1 b = drainAux parse f2 b := by
  intro f1
  induction f1 with
  | zero =>
    intro f2 b h1 h2
    have hb : b = [] := List.length_eq_zero.mp (Nat.le_zero.mp h1)
    subst hb
    cases f2 with
    | zero => rfl
    | succ f2' => rfl
  | succ f1' ih =>
    intro f2 b h1 h2
    cases f2 with
    | zero =>
      have hb : b = [] := List.length_eq_zero.mp (Nat.le_zero.mp h2)
      subst hb
      rfl
    | succ f2' =>
      show drainAux parse (f1' + 1) b = drainAux parse (f2' + 1) b
      rw [drainAux, drainAux]
      cases hs : findEventSplit b with
      | none => rfl
      | some p =>
        obtain ⟨event, rest⟩ := p
        have hlen := findEventSplit_len hs
        have := ih f2' rest (by omega) (by omega)
        dsimp only
        rw [this]

theorem drain_none {J : Type} (parse : List Char → Option J) {b : List Char}
    (hs : findEventSplit b = Option.none) : drain parse b = ([], .buf b) := by
  rw [drain]
  cases hb : b.length with
  | zero => rfl
  | succ n => rw [drainAux, hs]

theorem drain_some {J : Type} (parse : List Char → Option J) {b event rest : List Char}
    (hs : findEventSplit b = Option.some (event, rest)) :
    drain parse b =
      (if (processLines parse (pySplitlines event)).2 then
        ((processLines parse (pySplitlines event)).1, BufState.done)
      else
        ((processLines parse (pySplitlines event)).1 ++ (drain parse rest).1,
         (drain parse rest).2)) := by
  have hlen := findEventSplit_len hs
  rw [drain]
  cases hb : b.length with
  | zero => omega
  | succ n =>
    rw [drainAux, hs]
    have : drainAux parse n rest = drain parse rest := by
      rw [drain]
      exact drainAux_congr parse n rest.length rest (by omega) (by omega)
    dsimp only
    rw [this]

theorem drain_buf_no_event {J : Type} (parse : List Char → Option J) :
    ∀ (b B' : List Char), (drain parse b).2 = .buf B' → findEventSplit B' = Option.none := by
  have haux : ∀ (n : Nat) (b B' : List Char), b.length ≤ n →
      (drainAux parse n b).2 = .buf B' → findEventSplit B' = Option.none := by
    intro n
    induction n with
    | zero =>
      intro b B' h1 h2
      have hb : b = [] := List.length_eq_zero.mp (Nat.le_zero.mp h1)
      subst hb
      simp only [drainAux] at h2
      cases h2
      rfl
    | succ n' ih =>
      intro b B' h1 h2
      rw [drainAux] at h2
      cases hs : findEventSplit b with
      | none =>
        rw [hs] at h2
        simp only at h2
        cases h2
        exact hs
      | some p =>
        obtain ⟨event, rest⟩ := p
        rw [hs] at h2
        dsimp only at h2
        have hlen := findEventSplit_len hs
        by_cases hdone : (processLines parse (pySplitlines event)).2
        · rw [if_pos hdone] at h2; cases h2
        · rw [if_neg hdone] at h2
          simp only at h2
          exact ih rest B' (by omega) h2
  intro b B' h
  exact haux b.length b B' (by omega) h

theorem drain_append {J : Type} (parse : List Char → Option J) :
    ∀ (n : Nat) (B y : List Char), B.length ≤ n →
      drain parse (B ++ y) =
        (match drain parse B with
         | (o, .done) => (o, .done)
         | (o, .buf B') =>
           (o ++ (drain parse (B' ++ y)).1, (drain parse (B' ++ y)).2)) := by
  intro n
  induction n using Nat.strong_induction_on with
  | _ n ih =>
    intro B y hlen
    cases hs : findEventSplit B with
    | none =>
      rw [drain_none parse hs]
      simp only
      rw [List.nil_append]
    | some p =>
      obtain ⟨event, rest⟩ := p
      have hsy := findEventSplit_append B y event rest hs
      have hrlen := findEventSplit_len hs
      rw [drain_some parse hs, drain_some parse hsy]
      by_cases hdone : (processLines parse (pySplitlines event)).2
      · rw [if_pos hdone, if_pos hdone]
      · rw [if_neg hdone, if_neg hdone]
        cases n with
        | zero => omega
        | succ n' =>
          have hrec := ih n' (by omega) rest y (by omega)
          cases hrst : (drain parse rest).2 with
          | done =>
            have : drain parse rest = ((drain parse rest).1, BufState.done) := by
              rw [← hrst]
            rw [this] at hrec
            simp only at hrec
            rw [hrec]
          | buf B' =>
            have : drain parse rest = ((drain parse rest).1, BufState.buf B') := by
              rw [← hrst]
            rw [this] at hrec
            simp only at hrec
            rw [hrec]
            simp only [List.append_assoc]

theorem feedChunks_done {J : Type} (parse : List Char → Option J) :
    ∀ (cs : List (List Char)), feedChunks parse cs .done = ([], .done) := by
  intro cs
  cases cs with
  | nil => rfl
  | cons c cs' => rfl

theorem feed_join {J : Type} (parse : List Char → Option J) :
    ∀ (cs : List (List Char)) (b : List Char),
      feedChunks parse cs (.buf b) = feedChunks parse [joinAll cs] (.buf b) := by
  intro cs
  induction cs with
  | nil =>
    intro b
    show ([], BufState.buf b) = feedChunks parse [[]] (.buf b)
    rw [feedChunks]
    simp only [List.isEmpty_nil, if_true]
    rfl
  | cons c cs' ih =>
    intro b
    by_cases hc : c.isEmpty
    · have hcnil : c = [] := by
        cases c with
        | nil => rfl
        | cons x xs => simp [List.isEmpty] at hc
      rw [feedChunks]
      simp only [hc, if_true]
      rw [ih b]
      subst hcnil
      rw [show joinAll ([] :: cs') = joinAll cs' from rfl]
    · rw [feedChunks]
      simp only [hc, Bool.false_eq_true, if_false]
      have hj : joinAll (c :: cs') = c ++ joinAll cs' := rfl
      rw [hj]
      have hjoined : feedChunks parse [c ++ joinAll cs'] (.buf b)
          = (let d := drain parse (b ++ (c ++ joinAll cs'))
             (d.1, d.2)) := by
        rw [feedChunks]
        have : (c ++ joinAll cs').isEmpty = false := by
          cases c with
          | nil => simp [List.isEmpty] at hc
          | cons x xs => rfl
        simp only [this, Bool.false_eq_true, if_false]
        rw [feedChunks]
        simp
      rw [hjoined]
      have hassoc : b ++ (c ++ joinAll cs') = (b ++ c) ++ joinAll cs' := by
        rw [List.append_assoc]
      rw [hassoc]
      have happ := drain_append parse (b ++ c).length (b ++ c) (joinAll cs') (by omega)
      rw [happ]
      cases hst : (drain parse (b ++ c)).2 with
      | done =>
        rw [feedChunks_done]
        have : drain parse (b ++ c) = ((drain parse (b ++ c)).1, BufState.done) := by
          rw [← hst]
        rw [this]
        simp
      | buf B' =>
        have hBeq : drain parse (b ++ c) = ((drain parse (b ++ c)).1, BufState.buf B') := by
          rw [← hst]
        rw [hBeq]
        simp only
        rw [ih B']
        have hnoev := drain_buf_no_event parse (b ++ c) B' hst
        by_cases hjs : (joinAll cs').isEmpty
        · have hjnil : joinAll cs' = [] := by
            cases hjj : joinAll cs' with
            | nil => rfl
            | cons x xs => rw [hjj] at hjs; simp [List.isEmpty] at hjs
          rw [feedChunks]
          simp only [hjs, if_true]
          rw [hjnil, List.append_nil]
          rw [drain_none parse hnoev]
          rfl
        · rw [feedChunks]
          simp only [hjs, Bool.false_eq_true, if_false]
          rw [feedChunks]
          simp
      
theorem sseDecodeText_join {J : Type} (parse : List Char → Option J)
    (cs : List (List Char)) :
    sseDecodeText parse cs = sseDecodeText parse [joinAll cs] := by
  rw [sseDecodeText, sseDecodeText, feed_join parse cs []]

/-- Structure of a successful single-scalar UTF-8 decode: some nonempty
prefix of the input is consumed and the remainder returned unchanged. -/
theorem utf8DecodeOne_shape :
    ∀ (l : List Nat) (c : Char) (r : List Nat),
      utf8DecodeOne l = Option.some (c, r) →
      ∃ k : List Nat, l = k ++ r ∧ 1 ≤ k.length := by
  intro l c r h
  cases l with
  | nil => simp [utf8DecodeOne] at h
  | cons b0 rest =>
    rw [utf8DecodeOne.eq_def] at h
    dsimp only at h
    by_cases h1 : b0 < 0x80
    · rw [if_pos h1] at h
      injection h with h'
      injection h' with hc hr
      subst hr
      exact ⟨[b0], rfl, by simp⟩
    · rw [if_neg h1] at h
      by_cases h2 : b0 < 0xc2
      · rw [if_pos h2] at h; exact Option.noConfusion h
      · rw [if_neg h2] at h
        by_cases h3 : b0 < 0xe0
        · rw [if_pos h3] at h
          cases rest with
          | nil => exact Option.noConfusion h
          | cons b1 r1 =>
            try dsimp only at h
            by_cases hc1 : isContByte b1 = true
            · rw [if_pos hc1] at h
              injection h with h'
              injection h' with hc hr
              subst hr
              exact ⟨[b0, b1], rfl, by simp⟩
            · rw [if_neg hc1] at h; exact Option.noConfusion h
        · rw [if_neg h3] at h
          by_cases h4 : b0 < 0xf0
          · rw [if_pos h4] at h
            match rest with
            | [] => exact Option.noConfusion h
            | [b1] => exact Option.noConfusion h
            | b1 :: b2 :: r2 =>
              try dsimp only at h
              by_cases hc1 : (isContByte b1 && isContByte b2) = true
              · rw [if_pos hc1] at h
                try dsimp only at h
                by_cases hrange : ((b0 - 0xe0) * 0x1000 + (b1 - 0x80) * 0x40 + (b2 - 0x80) < 0x800
                    || (0xd800 ≤ (b0 - 0xe0) * 0x1000 + (b1 - 0x80) * 0x40 + (b2 - 0x80)
                        && (b0 - 0xe0) * 0x1000 + (b1 - 0x80) * 0x40 + (b2 - 0x80) < 0xe000)) = true
                · rw [if_pos hrange] at h; exact Option.noConfusion h
                · rw [if_neg hrange] at h
                  injection h with h'
                  injection h' with hc hr
                  subst hr
                  exact ⟨[b0, b1, b2], rfl, by simp⟩
              · rw [if_neg hc1] at h; exact Option.noConfusion h
          · rw [if_neg h4] at h
            by_cases h5 : b0 < 0xf5
            · rw [if_pos h5] at h
              match rest with
              | [] => exact Option.noConfusion h
              | [b1] => exact Option.noConfusion h
              | [b1, b2] => exact Option.noConfusion h
              | b1 :: b2 :: b3 :: r3 =>
                try dsimp only at h
                by_cases hc1 : (isContByte b1 && isContByte b2 && isContByte b3) = true
                · rw [if_pos hc1] at h
                  try dsimp only at h
                  by_cases hrange : ((b0 - 0xf0) * 0x40000 + (b1 - 0x80) * 0x1000
                      + (b2 - 0x80) * 0x40 + (b3 - 0x80) < 0x10000
                      || 0x110000 ≤ (b0 - 0xf0) * 0x40000 + (b1 - 0x80) * 0x1000
                          + (b2 - 0x80) * 0x40 + (b3 - 0x80)) = true
                  · rw [if_pos hrange] at h; exact Option.noConfusion h
                  · rw [if_neg hrange] at h
                    injection h with h'
                    injection h' with hc hr
                    subst hr
                    exact ⟨[b0, b1, b2, b3], rfl, by simp⟩
                · rw [if_neg hc1] at h; exact Option.noConfusion h
            · rw [if_neg h5] at h; exact Option.noConfusion h

set_option maxRecDepth 8192 in
theorem utf8DecodeOne_append :
    ∀ (a : List Nat) (c : Char) (r y : List Nat),
      utf8DecodeOne a = Option.some (c, r) →
      utf8DecodeOne (a ++ y) = Option.some (c, r ++ y) := by
  intro a c r y h
  cases a with
  | nil => simp [utf8DecodeOne] at h
  | cons b0 rest =>
    rw [utf8DecodeOne.eq_def] at h
    dsimp only at h
    rw [List.cons_append, utf8DecodeOne.eq_def]
    dsimp only
    by_cases h1 : b0 < 0x80
    · rw [if_pos h1] at h
      rw [if_pos h1]
      injection h with h'
      injection h' with hc hr
      subst hc
      subst hr
      rfl
    · rw [if_neg h1] at h
      rw [if_neg h1]
      by_cases h2 : b0 < 0xc2
      · rw [if_pos h2] at h; exact Option.noConfusion h
      · rw [if_neg h2] at h
        rw [if_neg h2]
        by_cases h3 : b0 < 0xe0
        · rw [if_pos h3] at h
          rw [if_pos h3]
          cases rest with
          | nil => exact Option.noConfusion h
          | cons b1 r1 =>
            try dsimp only at h
            rw [List.cons_append]
            try dsimp only
            by_cases hc1 : isContByte b1 = true
            · rw [if_pos hc1] at h
              rw [if_pos hc1]
              injection h with h'
              injection h' with hc hr
              subst hc
              subst hr
              rfl
            · rw [if_neg hc1] at h; exact Option.noConfusion h
        · rw [if_neg h3] at h
          rw [if_neg h3]
          by_cases h4 : b0 < 0xf0
          · rw [if_pos h4] at h
            rw [if_pos h4]
            match rest with
            | [] => exact Option.noConfusion h
            | [b1] => exact Option.noConfusion h
            | b1 :: b2 :: r2 =>
              try dsimp only at h
              rw [List.cons_append, List.cons_append]
              try dsimp only
              by_cases hc1 : (isContByte b1 && isContByte b2) = true
              · rw [if_pos hc1] at h
                rw [if_pos hc1]
                try dsimp only at h
                try dsimp only
                by_cases hrange : ((b0 - 0xe0) * 0x1000 + (b1 - 0x80) * 0x40 + (b2 - 0x80) < 0x800
                    || (0xd800 ≤ (b0 - 0xe0) * 0x1000 + (b1 - 0x80) * 0x40 + (b2 - 0x80)
                        && (b0 - 0xe0) * 0x1000 + (b1 - 0x80) * 0x40 + (b2 - 0x80) < 0xe000)) = true
                · rw [if_pos hrange] at h; exact Option.noConfusion h
                · rw [if_neg hrange] at h
                  rw [if_neg hrange]
                  injection h with h'
                  injection h' with hc hr
                  subst hc
                  subst hr
                  rfl
              · rw [if_neg hc1] at h; exact Option.noConfusion h
          · rw [if_neg h4] at h
            rw [if_neg h4]
            by_cases h5 : b0 < 0xf5
            · rw [if_pos h5] at h
              rw [if_pos h5]
              match rest with
              | [] => exact Option.noConfusion h
              | [b1] => exact Option.noConfusion h
              | [b1, b2] => exact Option.noConfusion h
              | b1 :: b2 :: b3 :: r3 =>
                try dsimp only at h
                rw [List.cons_append, List.cons_append, List.cons_append]
                try dsimp only
                by_cases hc1 : (isContByte b1 && isContByte b2 && isContByte b3) = true
                · rw [if_pos hc1] at h
                  rw [if_pos hc1]
                  try dsimp only at h
                  try dsimp only
                  by_cases hrange : ((b0 - 0xf0) * 0x40000 + (b1 - 0x80) * 0x1000
                      + (b2 - 0x80) * 0x40 + (b3 - 0x80) < 0x10000
                      || 0x110000 ≤ (b0 - 0xf0) * 0x40000 + (b1 - 0x80) * 0x1000
                          + (b2 - 0x80) * 0x40 + (b3 - 0x80)) = true
                  · rw [if_pos hrange] at h; exact Option.noConfusion h
                  · rw [if_neg hrange] at h
                    rw [if_neg hrange]
                    injection h with h'
                    injection h' with hc hr
                    subst hc
                    subst hr
                    rfl
                · rw [if_neg hc1] at h; exact Option.noConfusion h
            · rw [if_neg h5] at h; exact Option.noConfusion h

theorem utf8DecodeOne_len {l : List Nat} {c : Char} {r : List Nat}
    (h : utf8DecodeOne l = Option.some (c, r)) : r.length < l.length := by
  obtain ⟨k, hk, hk1⟩ := utf8DecodeOne_shape l c r h
  subst hk
  simp only [List.length_append]
  omega

theorem utf8DecodeAux_cons (fuel : Nat) (b : Nat) (bs : List Nat) :
    utf8DecodeAux (fuel + 1) (b :: bs)
      = match utf8DecodeOne (b :: bs) with
        | Option.none => Option.none
        | Option.some (c, r) => (utf8DecodeAux fuel r).map fun cs => c :: cs := rfl

theorem utf8DecodeAux_congr :
    ∀ (f1 f2 : Nat) (l : List Nat), l.length ≤ f1 → l.length ≤ f2 →
      utf8DecodeAux f1 l = utf8DecodeAux f2 l := by
  intro f1
  induction f1 with
  | zero =>
    intro f2 l h1 h2
    have hl : l = [] := List.length_eq_zero.mp (Nat.le_zero.mp h1)
    subst hl
    cases f2 with
    | zero => rfl
    | succ f2' => rfl
  | succ f1' ih =>
    intro f2 l h1 h2
    cases l with
    | nil => cases f2 <;> rfl
    | cons b bs =>
      cases f2 with
      | zero => simp at h2
      | succ f2' =>
        show utf8DecodeAux (f1' + 1) (b :: bs) = utf8DecodeAux (f2' + 1) (b :: bs)
        rw [utf8DecodeAux_cons, utf8DecodeAux_cons]
        cases hone : utf8DecodeOne (b :: bs) with
        | none => rfl
        | some p =>
          obtain ⟨c, r⟩ := p
          have hlen := utf8DecodeOne_len hone
          dsimp only
          rw [ih f2' r (by simp only [List.length_cons] at hlen h1; omega)
            (by simp only [List.length_cons] at hlen h2; omega)]

theorem utf8Decode_append :
    ∀ (n : Nat) (a b : List Nat) (ta tb : List Char), a.length ≤ n →
      utf8Decode a = Option.some ta → utf8Decode b = Option.some tb →
      utf8Decode (a ++ b) = Option.some (ta ++ tb) := by
  intro n
  induction n using Nat.strong_induction_on with
  | _ n ih =>
    intro a b ta tb hlen ha hb
    cases a with
    | nil =>
      have : ta = [] := by
        rw [utf8Decode] at ha
        simp only [List.length_nil, utf8DecodeAux] at ha
        exact (Option.some.injEq _ _ ▸ ha).symm
      subst this
      simpa using hb
    | cons b0 rest =>
      rw [utf8Decode] at ha
      have hlc : (b0 :: rest).length = rest.length + 1 := by simp
      rw [hlc, utf8DecodeAux_cons] at ha
      cases hone : utf8DecodeOne (b0 :: rest) with
      | none => rw [hone] at ha; exact Option.noConfusion ha
      | some p =>
        obtain ⟨c, r⟩ := p
        rw [hone] at ha
        dsimp only at ha
        have hrl := utf8DecodeOne_len hone
        cases haux : utf8DecodeAux rest.length r with
        | none => rw [haux] at ha; exact Option.noConfusion ha
        | some tr =>
          rw [haux] at ha
          simp only [Option.map_some', Option.some.injEq] at ha
          have hrdec : utf8Decode r = Option.some tr := by
            rw [utf8Decode]
            rw [utf8DecodeAux_congr r.length rest.length r (by omega) (by simp at hrl; omega)]
            exact haux
          cases n with
          | zero => simp at hlen
          | succ n' =>
            have hrec := ih n' (by omega) r b tr tb (by simp at hrl hlen; omega) hrdec hb
            have honeapp := utf8DecodeOne_append (b0 :: rest) c r b hone
            rw [utf8Decode]
            rw [show (b0 :: rest) ++ b = b0 :: (rest ++ b) from rfl]
            have hlc2 : (b0 :: (rest ++ b)).length = (rest ++ b).length + 1 := by simp
            rw [hlc2, utf8DecodeAux_cons]
            rw [show (b0 :: rest) ++ b = b0 :: (rest ++ b) from rfl] at honeapp
            rw [honeapp]
            dsimp only
            rw [utf8DecodeAux_congr (rest ++ b).length (r ++ b).length (r ++ b)
              (by simp at hrl ⊢; omega) (by omega)]
            rw [← utf8Decode, hrec]
            rw [← ha]
            rfl

theorem joinAll_utf8_valid :
    ∀ (cs : List (List Nat)), (∀ f ∈ cs, (utf8Decode f).isSome = true) →
      utf8Decode (joinAll cs) = Option.some (joinAll (cs.map decodeChunkText)) := by
  intro cs
  induction cs with
  | nil => intro _; rfl
  | cons c cs' ih =>
    intro hall
    have hc : (utf8Decode c).isSome = true := hall c (List.mem_cons_self c cs')
    have hcs' : ∀ f ∈ cs', (utf8Decode f).isSome = true :=
      fun f hf => hall f (List.mem_cons_of_mem c hf)
    cases hdec : utf8Decode c with
    | none => rw [hdec] at hc; simp at hc
    | some tc =>
      have hrest := ih hcs'
      have htext : decodeChunkText c = tc := by
        rw [decodeChunkText, hdec]
      show utf8Decode (c ++ joinAll cs') = _
      rw [utf8Decode_append c.length c (joinAll cs') tc (joinAll (cs'.map decodeChunkText))
        (by omega) hdec hrest]
      rw [show (c :: cs').map decodeChunkText = decodeChunkText c :: cs'.map decodeChunkText
        from rfl]
      rw [htext]
      rfl

/-- C1 counterexample: the well-formed SSE byte sequence whose single event
payload is the JSON object with delta.text value é (`sseDeltaBytes`), split
after byte 25 — in the middle of the two-byte UTF-8 character é.  Each
fragment fails strict UTF-8 decoding, so stream_json falls back to latin-1 on
each fragment separately and the buffer receives the mojibake Ã© in place of
é.  The mangled payload is still a valid escape-free JSON text, so
`json.loads` (here `jsonLoadsDelta`, which agrees with `json.loads` on both
payloads arising in the two runs) succeeds on it, and the claude-branch
StreamChunk contents concatenate to Ã© in the split run versus é in the
unsplit run: the original claim fails for splits inside a multi-byte
character. -/
theorem C1_counterexample :
    joinAll ((sseDecodeBytes jsonLoadsDelta
        [sseDeltaBytes.take 25, sseDeltaBytes.drop 25]).filterMap claudeChunkContent)
      ≠ joinAll ((sseDecodeBytes jsonLoadsDelta
        [joinAll [sseDeltaBytes.take 25, sseDeltaBytes.drop 25]]).filterMap
          claudeChunkContent) := by
  decide

/-- C1 amended: for every SSE byte sequence, every event parser and every
content extraction, and every split into byte fragments in which no fragment
cuts a multi-byte UTF-8 character (each fragment is itself valid UTF-8),
decoding the fragments yields exactly the same event sequence as decoding the
unsplit sequence, and hence the same concatenation of extracted contents.
Splits in the middle of a JSON token (at character granularity) are fully
covered. -/
theorem C1_amended (J : Type) (parse : List Char → Option J)
    (content : J → Option (List Char)) (frags : List (List Nat))
    (hvalid : ∀ f ∈ frags, (utf8Decode f).isSome = true) :
    sseDecodeBytes parse frags = sseDecodeBytes parse [joinAll frags] ∧
    joinAll ((sseDecodeBytes parse frags).filterMap content)
      = joinAll ((sseDecodeBytes parse [joinAll frags]).filterMap content) := by
  have h1 : sseDecodeBytes parse frags = sseDecodeText parse (frags.map decodeChunkText) := rfl
  have hjoin := joinAll_utf8_valid frags hvalid
  have h2 : decodeChunkText (joinAll frags) = joinAll (frags.map decodeChunkText) := by
    rw [decodeChunkText, hjoin]
  have h3 : sseDecodeBytes parse [joinAll frags]
      = sseDecodeText parse [joinAll (frags.map decodeChunkText)] := by
    rw [sseDecodeBytes]
    rw [show [joinAll frags].map decodeChunkText = [decodeChunkText (joinAll frags)] from rfl]
    rw [h2]
  constructor
  · rw [h1, h3, sseDecodeText_join]
  · rw [h1, h3, sseDecodeText_join]

/-- C1 amended, witness: the bytes of `data: he\n\n` split in the middle of
the JSON-free payload, with the identity parser.  Both fragments are valid
UTF-8, so the theorem applies; the decoded event lists agree. -/
theorem C1_amended_witness :
    (∀ f ∈ [[100, 97, 116, 97, 58, 32, 104], [101, 10, 10]],
      (utf8Decode f).isSome = true) ∧
    sseDecodeBytes (Option.some : List Char → Option (List Char))
        [[100, 97, 116, 97, 58, 32, 104], [101, 10, 10]]
      = sseDecodeBytes Option.some
        [joinAll [[100, 97, 116, 97, 58, 32, 104], [101, 10, 10]]] := by
  refine ⟨by decide, ?_⟩
  exact (C1_amended (List Char) Option.some Option.some
    [[100, 97, 116, 97, 58, 32, 104], [101, 10, 10]] (by decide)).1

theorem feedChunks_cons_buf {J : Type} (parse : List Char → Option J)
    (c : List Char) (cs : List (List Char)) (b : List Char) :
    feedChunks parse (c :: cs) (.buf b)
      = if c.isEmpty then feedChunks parse cs (.buf b)
        else
          ((drain parse (b ++ c)).1 ++ (feedChunks parse cs (drain parse (b ++ c)).2).1,
           (feedChunks parse cs (drain parse (b ++ c)).2).2) := rfl

theorem pySplitlinesGo_noLB :
    ∀ (p acc : List Char) (cr : Bool), (∀ ch ∈ p, pyIsLineBreak ch = false) →
      pySplitlinesGo p acc cr
        = if p.isEmpty && acc.isEmpty then [] else [acc.reverse ++ p] := by
  intro p
  induction p with
  | nil =>
    intro acc cr _
    by_cases hacc : acc.isEmpty <;> simp [pySplitlinesGo, hacc]
  | cons ch rest ih =>
    intro acc cr hlb
    have hch : pyIsLineBreak ch = false := hlb ch (List.mem_cons_self ch rest)
    have hne : ch ≠ '\n' := by
      intro h
      subst h
      rw [show pyIsLineBreak '\n' = true from rfl] at hch
      cases hch
    have hrest : ∀ ch' ∈ rest, pyIsLineBreak ch' = false :=
      fun ch' h' => hlb ch' (List.mem_cons_of_mem ch h')
    rw [pySplitlinesGo]
    rw [if_neg ?hcond]
    case hcond =>
      simp [hne]
    rw [if_neg ?hlbneg]
    case hlbneg =>
      simp [hch]
    rw [ih (ch :: acc) false hrest]
    by_cases hr : rest.isEmpty <;> simp [hr]

theorem pySplitlines_noLB (p : List Char) (hne : p ≠ [])
    (h : ∀ ch ∈ p, pyIsLineBreak ch = false) : pySplitlines p = [p] := by
  rw [pySplitlines, pySplitlinesGo_noLB p [] false h]
  have : p.isEmpty = false := by
    cases p with
    | nil => exact absurd rfl hne
    | cons c cs => rfl
  simp [this]

theorem processLines_single {J : Type} (parse : List Char → Option J)
    (l d : List Char) (hd : dataPayloadOf l = Option.some d) (hnd : d ≠ doneLit) :
    processLines parse [l]
      = (match parse d with
         | Option.some j => ([j], false)
         | Option.none => ([], false)) := by
  rw [processLines, hd]
  dsimp only
  rw [if_neg hnd]
  cases hp : parse d with
  | none => rfl
  | some j => rfl

theorem line_noLB (x : List Char) (hx : ∀ ch ∈ x, pyIsLineBreak ch = false) :
    ∀ ch ∈ dataTag ++ ' ' :: x, pyIsLineBreak ch = false := by
  intro ch hch
  rcases List.mem_append.mp hch with h | h
  · fin_cases h <;> decide
  · rcases List.mem_cons.mp h with h' | h'
    · subst h'; decide
    · exact hx ch h'

theorem noLB_ne_nl {p : List Char} (h : ∀ ch ∈ p, pyIsLineBreak ch = false) :
    ∀ ch ∈ p, ch ≠ '\n' := by
  intro ch hch heq
  subst heq
  have h1 := h '\n' hch
  rw [show pyIsLineBreak '\n' = true from rfl] at h1
  cases h1

/-- C7: a malformed (unparseable) `data:` line interleaved between two valid
`data:` events yields exactly the two valid decoded events, in order; the
parse failure of the middle event neither aborts the stream nor affects its
siblings. -/
theorem C7_malformed_tolerance (J : Type) (parse : List Char → Option J)
    (a b c : List Char) (ja jc : J)
    (hna : ∀ ch ∈ a, pyIsLineBreak ch = false)
    (hnb : ∀ ch ∈ b, pyIsLineBreak ch = false)
    (hnc : ∀ ch ∈ c, pyIsLineBreak ch = false)
    (hpa : dataPayloadOf (dataTag ++ ' ' :: a) = Option.some a)
    (hpb : dataPayloadOf (dataTag ++ ' ' :: b) = Option.some b)
    (hpc : dataPayloadOf (dataTag ++ ' ' :: c) = Option.some c)
    (hda : a ≠ doneLit) (hdb : b ≠ doneLit) (hdc : c ≠ doneLit)
    (hja : parse a = Option.some ja) (hjb : parse b = Option.none)
    (hjc : parse c = Option.some jc) :
    sseDecodeText parse [dataLineOf a ++ dataLineOf b ++ dataLineOf c] = [ja, jc] := by
  have hB : dataLineOf a ++ dataLineOf b ++ dataLineOf c
      = (dataTag ++ ' ' :: a) ++ '\n' :: '\n' ::
          ((dataTag ++ ' ' :: b) ++ '\n' :: '\n' ::
            ((dataTag ++ ' ' :: c) ++ '\n' :: '\n' :: [])) := by
    simp [dataLineOf, List.append_assoc]
  have hLa := line_noLB a hna
  have hLb := line_noLB b hnb
  have hLc := line_noLB c hnc
  have hone : ∀ (x : List Char), (∀ ch ∈ x, pyIsLineBreak ch = false) →
      dataPayloadOf (dataTag ++ ' ' :: x) = Option.some x → x ≠ doneLit →
      ∀ (t : List Char),
        drain parse ((dataTag ++ ' ' :: x) ++ '\n' :: '\n' :: t)
          = ((match parse x with
              | Option.some j => [j]
              | Option.none => []) ++ (drain parse t).1, (drain parse t).2) := by
    intro x hnx hpx hdx t
    have hsplit := findEventSplit_noNl (dataTag ++ ' ' :: x) t (noLB_ne_nl (line_noLB x hnx))
    have hlines : pySplitlines (dataTag ++ ' ' :: x) = [dataTag ++ ' ' :: x] :=
      pySplitlines_noLB _ (by simp [dataTag]) (line_noLB x hnx)
    cases hp : parse x with
    | some j =>
      rw [drain_some parse hsplit, hlines, processLines_single parse _ x hpx hdx, hp]
      simp
    | none =>
      rw [drain_some parse hsplit, hlines, processLines_single parse _ x hpx hdx, hp]
      simp
  rw [sseDecodeText, feedChunks_cons_buf]
  have hnonempty : (dataLineOf a ++ dataLineOf b ++ dataLineOf c).isEmpty = false := rfl
  simp only [hnonempty, Bool.false_eq_true, if_false, List.nil_append]
  rw [hB, hone a hna hpa hda, hone b hnb hpb hdb, hone c hnc hpc hdc]
  rw [show drain parse ([] : List Char) = ([], BufState.buf []) from rfl]
  rw [hja, hjb, hjc]
  dsimp only
  rw [show feedChunks parse [] (BufState.buf []) = ([], BufState.buf []) from rfl]
  simp

/-- C7 witness: the literal scenario of the spec, with the middle line
`data: {not valid json}` unparseable and two parseable neighbours. -/
theorem C7_malformed_tolerance_witness :
    sseDecodeText
        (fun l => if l = ['1'] then Option.some 1
                  else if l = ['2'] then Option.some 2 else Option.none)
        [dataLineOf ['1']
          ++ dataLineOf ('\x7b' :: "not valid json".toList ++ ['\x7d'])
          ++ dataLineOf ['2']]
      = [1, 2] := by
  exact C7_malformed_tolerance Nat
    (fun l => if l = ['1'] then Option.some 1
              else if l = ['2'] then Option.some 2 else Option.none)
    ['1'] ('\x7b' :: "not valid json".toList ++ ['\x7d']) ['2'] 1 2
    (by decide) (by decide) (by decide)
    (by decide) (by decide) (by decide)
    (by decide) (by decide) (by decide)
    (by decide) (by decide) (by decide)

/-- C5 amended, witness: a chat body whose message content is Python None, a
claude body with no blocks, and a google body with no candidates. -/
theorem C5_amended_witness :
    (∃ mr, openaiExtractMain
        (.dict [("choices", .list [.dict [("message", .dict [("content", PyVal.none)])]])])
        = Option.some mr ∧ mr.content = PyVal.none) ∧
    (∃ mr, claudeExtractMain (.dict [("content", .list [])]) = Option.some mr ∧
      mr.content ≠ PyVal.str "") ∧
    (∃ mr, googleExtractMain (.dict []) = Option.some mr ∧
      mr.content ≠ PyVal.str "") := by
  refine ⟨⟨_, rfl, ?_⟩, ⟨_, rfl, ?_⟩, ⟨_, rfl, ?_⟩⟩
  · exact C5_amended.1
      (.dict [("choices", .list [.dict [("message", .dict [("content", PyVal.none)])]])])
      _ _ _ _ rfl rfl rfl rfl rfl
  · exact C5_amended.2.1 (.dict [("content", .list [])]) _ rfl
  · exact C5_amended.2.2 (.dict []) _ rfl

/-! ## Terminal-sentinel lemmas -/

theorem pySplitlinesGo_cons (c : Char) (rest acc : List Char) (cr : Bool) :
    pySplitlinesGo (c :: rest) acc cr
      = if cr && c = '\n' then pySplitlinesGo rest acc false
        else if pyIsLineBreak c then acc.reverse :: pySplitlinesGo rest [] (c = '\r')
        else pySplitlinesGo rest (c :: acc) false := rfl

theorem pySplitlinesGo_append_nl :
    ∀ (A : List Char), (∃ B, A = B ++ ['\n']) →
      ∀ (acc : List Char) (cr : Bool) (X : List Char), (cr = true → acc = []) →
        pySplitlinesGo (A ++ X) acc cr
          = pySplitlinesGo A acc cr ++ pySplitlinesGo X [] false := by
  intro A
  induction A with
  | nil =>
    rintro ⟨B, hB⟩
    exact absurd hB (by cases B <;> simp)
  | cons c rest ih =>
    rintro ⟨B, hB⟩ acc cr X hinv
    cases rest with
    | nil =>
      have hc : c = '\n' := by
        cases B with
        | nil => simpa using hB
        | cons x xs =>
          injection hB with h1 h2
          exact absurd h2.symm (by cases xs <;> simp)
      subst hc
      by_cases hcr : cr = true
      · have hacc : acc = [] := hinv hcr
        subst hacc
        subst hcr
        rw [show (('\n' :: ([] : List Char)) ++ X) = '\n' :: X from rfl]
        rw [pySplitlinesGo_cons '\n' X [] true, pySplitlinesGo_cons '\n' [] [] true]
        simp [pySplitlinesGo]
      · have hcr' : cr = false := by revert hcr; cases cr <;> simp
        subst hcr'
        rw [show (('\n' :: ([] : List Char)) ++ X) = '\n' :: X from rfl]
        rw [pySplitlinesGo_cons '\n' X acc false, pySplitlinesGo_cons '\n' [] acc false]
        simp [pySplitlinesGo, pyIsLineBreak]
    | cons d rest' =>
      have hrest : ∃ B', (d :: rest') = B' ++ ['\n'] := by
        cases B with
        | nil => exact absurd hB (by simp)
        | cons x xs =>
          injection hB with h1 h2
          exact ⟨xs, h2⟩
      rw [show ((c :: d :: rest') ++ X) = c :: ((d :: rest') ++ X) from rfl]
      rw [pySplitlinesGo_cons c ((d :: rest') ++ X) acc cr,
          pySplitlinesGo_cons c (d :: rest') acc cr]
      by_cases h1 : cr = true ∧ c = '\n'
      · have hacc : acc = [] := hinv h1.1
        subst hacc
        rw [if_pos (by simp [h1.1, h1.2]), if_pos (by simp [h1.1, h1.2])]
        exact ih hrest [] false X (by simp)
      · have hna : ¬((cr && decide (c = '\n')) = true) := by
          simp only [Bool.and_eq_true, decide_eq_true_eq]
          exact h1
        rw [if_neg hna, if_neg hna]
        by_cases h2 : pyIsLineBreak c = true
        · rw [if_pos h2, if_pos h2]
          rw [ih hrest [] (c = '\r') X (fun _ => rfl)]
          rw [List.cons_append]
        · rw [if_neg h2, if_neg h2]
          exact ih hrest (c :: acc) false X (by simp)

theorem pySplitlines_append_aligned (A X : List Char)
    (hal : A = [] ∨ ∃ B, A = B ++ ['\n']) :
    pySplitlines (A ++ X) = pySplitlines A ++ pySplitlines X := by
  rcases hal with h | h
  · subst h
    rfl
  · simp only [pySplitlines]
    exact pySplitlinesGo_append_nl A h [] false X (fun hf => Bool.noConfusion hf)

theorem pySplitlinesGo_line_nl :
    ∀ (L : List Char), (∀ ch ∈ L, pyIsLineBreak ch = false) →
      ∀ (acc mid : List Char),
        pySplitlinesGo (L ++ '\n' :: mid) acc false
          = (acc.reverse ++ L) :: pySplitlinesGo mid [] false := by
  intro L
  induction L with
  | nil =>
    intro _ acc mid
    rw [List.nil_append, pySplitlinesGo_cons '\n' mid acc false]
    simp [pyIsLineBreak]
  | cons c rest ih =>
    intro hLB acc mid
    have hc := hLB c (List.mem_cons_self c rest)
    rw [show ((c :: rest) ++ '\n' :: mid) = c :: (rest ++ '\n' :: mid) from rfl,
        pySplitlinesGo_cons c (rest ++ '\n' :: mid) acc false]
    rw [if_neg (by simp), if_neg (by simp [hc])]
    rw [ih (fun ch h => hLB ch (List.mem_cons_of_mem c h)) (c :: acc) mid]
    simp

theorem pySplitlines_line_nl (L mid : List Char)
    (h : ∀ ch ∈ L, pyIsLineBreak ch = false) :
    pySplitlines (L ++ '\n' :: mid) = L :: pySplitlines mid := by
  simp only [pySplitlines]
  rw [pySplitlinesGo_line_nl L h [] mid]
  rfl

theorem findEventSplit_none_of_noNl :
    ∀ (l : List Char), (∀ ch ∈ l, ch ≠ '\n') → findEventSplit l = Option.none := by
  intro l
  induction l with
  | nil => intro _; rfl
  | cons c rest ih =>
    intro h
    cases rest with
    | nil => rfl
    | cons d rest' =>
      have hd : d ≠ '\n' := h d (List.mem_cons_of_mem c (List.mem_cons_self d rest'))
      rw [findEventSplit, if_neg (fun hand => hd hand.2)]
      rw [ih (fun ch hch => h ch (List.mem_cons_of_mem c hch))]
      rfl

theorem findEventSplit_app_right :
    ∀ (a b : List Char), findEventSplit a = Option.none →
      (∀ a' b', a = a' ++ ['\n'] → b = '\n' :: b' → False) →
      findEventSplit (a ++ b)
        = (findEventSplit b).map fun p => (a ++ p.1, p.2) := by
  intro a
  induction a with
  | nil =>
    intro b _ _
    rw [List.nil_append]
    cases hb : findEventSplit b with
    | none => rfl
    | some p => obtain ⟨e, r⟩ := p; rfl
  | cons c as ih =>
    intro b hfes hj
    cases as with
    | nil =>
      cases b with
      | nil => rw [List.append_nil]; rfl
      | cons b0 bs =>
        by_cases hcb : c = '\n' ∧ b0 = '\n'
        · exact (hj [] bs (by rw [hcb.1]; rfl) (by rw [hcb.2])).elim
        · show findEventSplit (c :: b0 :: bs) = _
          rw [findEventSplit, if_neg hcb]
          cases hb : findEventSplit (b0 :: bs) with
          | none => rfl
          | some p => obtain ⟨e, r⟩ := p; rfl
    | cons d rest =>
      have hnn : ¬(c = '\n' ∧ d = '\n') := by
        intro hand
        rw [findEventSplit, if_pos hand] at hfes
        exact Option.noConfusion hfes
      have htl : findEventSplit (d :: rest) = Option.none := by
        rw [findEventSplit, if_neg hnn] at hfes
        cases hm : findEventSplit (d :: rest) with
        | none => rfl
        | some p =>
          rw [hm, Option.map_some'] at hfes
          exact Option.noConfusion hfes
      have hjt : ∀ a' b', (d :: rest) = a' ++ ['\n'] → b = '\n' :: b' → False := by
        intro a' b' h1 h2
        exact hj (c :: a') b' (by rw [List.cons_append, h1]) h2
      show findEventSplit (c :: ((d :: rest) ++ b)) = _
      rw [show ((d :: rest) ++ b) = d :: (rest ++ b) from rfl]
      rw [findEventSplit, if_neg hnn]
      rw [show (d :: (rest ++ b)) = (d :: rest) ++ b from rfl]
      rw [ih b htl hjt]
      cases hb : findEventSplit b with
      | none => rfl
      | some p => obtain ⟨e, r⟩ := p; rfl

theorem aligned_suffix {A E A2 : List Char}
    (hdec : A = E ++ '\n' :: '\n' :: A2)
    (hal : A = [] ∨ ∃ B, A = B ++ ['\n']) :
    A2 = [] ∨ ∃ B, A2 = B ++ ['\n'] := by
  rcases hal with h | ⟨B, hB⟩
  · rw [h] at hdec
    exact absurd hdec (by cases E <;> simp)
  · rcases List.eq_nil_or_concat A2 with h2 | ⟨B2, c, h2⟩
    · exact Or.inl h2
    · right
      rw [List.concat_eq_append] at h2
      refine ⟨B2, ?_⟩
      rw [h2] at hdec
      have h1 : B ++ ['\n'] = (E ++ '\n' :: '\n' :: B2) ++ [c] := by
        rw [← hB, hdec]
        simp [List.append_assoc]
      obtain ⟨-, h3⟩ := List.append_inj' h1 rfl
      have hc : c = '\n' := by
        injection h3 with h4 _
        exact h4.symm
      rw [h2, hc]

theorem processLines_cons {J : Type} (parse : List Char → Option J)
    (l : List Char) (ls : List (List Char)) :
    processLines parse (l :: ls)
      = (match dataPayloadOf l with
         | Option.none => processLines parse ls
         | Option.some data =>
           if data = doneLit then ([], true)
           else
             match parse data with
             | Option.some j =>
               (j :: (processLines parse ls).1, (processLines parse ls).2)
             | Option.none => processLines parse ls) := rfl

theorem processLines_cons_done {J : Type} (parse : List Char → Option J)
    {L : List Char} (hpay : dataPayloadOf L = Option.some doneLit)
    (ls : List (List Char)) :
    processLines parse (L :: ls) = ([], true) := by
  rw [processLines_cons parse L ls, hpay]
  dsimp only
  rw [if_pos rfl]

theorem processLines_upto_done {J : Type} (parse : List Char → Option J)
    {L : List Char} (hpay : dataPayloadOf L = Option.some doneLit) :
    ∀ (ls1 ls : List (List Char)),
      processLines parse (ls1 ++ L :: ls) = ((processLines parse ls1).1, true) := by
  intro ls1
  induction ls1 with
  | nil =>
    intro ls
    rw [List.nil_append, processLines_cons_done parse hpay]
    rfl
  | cons l rest ih =>
    intro ls
    rw [List.cons_append, processLines_cons parse l (rest ++ L :: ls),
        processLines_cons parse l rest]
    cases hd : dataPayloadOf l with
    | none =>
      dsimp only
      exact ih ls
    | some d =>
      dsimp only
      by_cases hdl : d = doneLit
      · rw [if_pos hdl, if_pos hdl]
      · rw [if_neg hdl, if_neg hdl]
        cases hp : parse d with
        | none =>
          dsimp only
          exact ih ls
        | some j =>
          dsimp only
          rw [ih ls]

theorem drainFlush_event {J : Type} (parse : List Char → Option J)
    {b E R : List Char} (hs : findEventSplit b = Option.some (E, R)) :
    drainFlush parse b
      = (if (processLines parse (pySplitlines E)).2
         then (processLines parse (pySplitlines E)).1
         else (processLines parse (pySplitlines E)).1 ++ drainFlush parse R) := by
  simp only [drainFlush]
  rw [drain_some parse hs]
  by_cases hp : (processLines parse (pySplitlines E)).2
  · rw [if_pos hp, if_pos hp]
    dsimp only [flushTail]
    rw [List.append_nil]
  · rw [if_neg hp, if_neg hp]
    dsimp only
    rw [List.append_assoc]

theorem drainFlush_noevent {J : Type} (parse : List Char → Option J)
    {b : List Char} (hs : findEventSplit b = Option.none) :
    drainFlush parse b
      = if b.isEmpty then [] else (processLines parse (pySplitlines b)).1 := by
  simp only [drainFlush]
  rw [drain_none parse hs]
  dsimp only [flushTail]
  rw [List.nil_append]

theorem sseDecodeText_single {J : Type} (parse : List Char → Option J)
    (t : List Char) : sseDecodeText parse [t] = drainFlush parse t := by
  cases t with
  | nil => rfl
  | cons c0 t' =>
    rw [sseDecodeText, feedChunks_cons_buf]
    rw [if_neg (show ¬((c0 :: t').isEmpty = true) by simp)]
    rw [List.nil_append]
    simp only [drainFlush]
    cases hd : drain parse (c0 :: t') with
    | mk o st =>
      dsimp only [feedChunks]
      cases st with
      | done => dsimp only [flushTail]
      | buf b' =>
        dsimp only [flushTail]
        by_cases hb : b'.isEmpty
        · simp [hb]
        · simp only [hb, Bool.false_eq_true, if_false]
          rw [List.append_nil]

theorem drainFlush_sentinel {J : Type} (parse : List Char → Option J)
    {L : List Char}
    (hnoLB : ∀ ch ∈ L, pyIsLineBreak ch = false)
    (hpay : dataPayloadOf L = Option.some doneLit) :
    ∀ (n : Nat) (A : List Char), A.length ≤ n →
      (A = [] ∨ ∃ B, A = B ++ ['\n']) →
      ∀ (S : List Char),
        drainFlush parse (A ++ (L ++ '\n' :: S)) = drainFlush parse (A ++ L) := by
  have hLnil : L ≠ [] := by
    intro h
    rw [h] at hpay
    exact Option.noConfusion hpay
  have hLnn : ∀ ch ∈ L, ch ≠ '\n' := noLB_ne_nl hnoLB
  intro n
  induction n using Nat.strong_induction_on with
  | _ n ih =>
    intro A hlen halign S
    cases hsA : findEventSplit A with
    | some p =>
      obtain ⟨E, A2⟩ := p
      have hdec := findEventSplit_decomp A E A2 hsA
      have h1 : findEventSplit (A ++ (L ++ '\n' :: S))
          = Option.some (E, A2 ++ (L ++ '\n' :: S)) :=
        findEventSplit_append A (L ++ '\n' :: S) E A2 hsA
      have h2 : findEventSplit (A ++ L) = Option.some (E, A2 ++ L) :=
        findEventSplit_append A L E A2 hsA
      rw [drainFlush_event parse h1, drainFlush_event parse h2]
      by_cases hp : (processLines parse (pySplitlines E)).2
      · rw [if_pos hp, if_pos hp]
      · rw [if_neg hp, if_neg hp]
        have hlenA2 : A2.length < n := by
          have hAl : A.length = E.length + (2 + A2.length) := by
            rw [hdec]
            simp
            omega
          omega
        rw [ih A2.length hlenA2 A2 (le_refl _) (aligned_suffix hdec halign) S]
    | none =>
      have hfesL : findEventSplit L = Option.none := findEventSplit_none_of_noNl L hLnn
      have hjAL : ∀ a' b', A = a' ++ ['\n'] → L = '\n' :: b' → False := by
        intro a' b' _ h2
        exact hLnn '\n' (by rw [h2]; exact List.mem_cons_self _ _) rfl
      have hAL : findEventSplit (A ++ L) = Option.none := by
        rw [findEventSplit_app_right A L hsA hjAL, hfesL]
        rfl
      have hjA : ∀ a' b', A = a' ++ ['\n'] → (L ++ '\n' :: S) = '\n' :: b' → False := by
        intro a' b' _ h2
        obtain ⟨c, L', hL⟩ := List.exists_cons_of_ne_nil hLnil
        rw [hL, List.cons_append] at h2
        injection h2 with h3 _
        exact hLnn c (by rw [hL]; exact List.mem_cons_self _ _) h3
      have hjL : ∀ a' b', L = a' ++ ['\n'] → ('\n' :: S) = '\n' :: b' → False := by
        intro a' b' h1 _
        exact hLnn '\n' (by rw [h1]; simp) rfl
      have hTfes : findEventSplit (A ++ (L ++ '\n' :: S))
          = (findEventSplit ('\n' :: S)).map fun p => (A ++ (L ++ p.1), p.2) := by
        rw [findEventSplit_app_right A (L ++ '\n' :: S) hsA hjA,
            findEventSplit_app_right L ('\n' :: S) hfesL hjL]
        cases findEventSplit ('\n' :: S) with
        | none => rfl
        | some p => obtain ⟨e, r⟩ := p; rfl
      have hALne : (A ++ L).isEmpty = false := by
        cases A with
        | nil =>
          obtain ⟨c, L', hL⟩ := List.exists_cons_of_ne_nil hLnil
          rw [hL]
          rfl
        | cons a as => rfl
      have hlinesAL : pySplitlines (A ++ L) = pySplitlines A ++ [L] := by
        rw [pySplitlines_append_aligned A L halign, pySplitlines_noLB L hLnil hnoLB]
      have hRHS : drainFlush parse (A ++ L) = (processLines parse (pySplitlines A)).1 := by
        rw [drainFlush_noevent parse hAL]
        simp only [hALne, Bool.false_eq_true, if_false]
        rw [hlinesAL, processLines_upto_done parse hpay (pySplitlines A) []]
      cases hS : findEventSplit ('\n' :: S) with
      | none =>
        have hTn : findEventSplit (A ++ (L ++ '\n' :: S)) = Option.none := by
          rw [hTfes, hS]
          rfl
        rw [drainFlush_noevent parse hTn, hRHS]
        have hTne : (A ++ (L ++ '\n' :: S)).isEmpty = false := by
          cases A with
          | nil =>
            obtain ⟨c, L', hL⟩ := List.exists_cons_of_ne_nil hLnil
            rw [hL]
            rfl
          | cons a as => rfl
        simp only [hTne, Bool.false_eq_true, if_false]
        rw [pySplitlines_append_aligned A (L ++ '\n' :: S) halign,
            pySplitlines_line_nl L S hnoLB,
            processLines_upto_done parse hpay (pySplitlines A) (pySplitlines S)]
      | some p =>
        obtain ⟨m, R⟩ := p
        have hTs : findEventSplit (A ++ (L ++ '\n' :: S))
            = Option.some (A ++ (L ++ m), R) := by
          rw [hTfes, hS]
          rfl
        rw [drainFlush_event parse hTs, hRHS]
        have hdm := findEventSplit_decomp ('\n' :: S) m R hS
        cases m with
        | nil =>
          rw [List.append_nil]
          rw [hlinesAL, processLines_upto_done parse hpay (pySplitlines A) []]
          dsimp only
          rw [if_pos rfl]
        | cons m0 m' =>
          have hm0 : m0 = '\n' := by
            injection hdm with h4 _
            exact h4.symm
          subst hm0
          rw [pySplitlines_append_aligned A (L ++ '\n' :: m') halign,
              pySplitlines_line_nl L m' hnoLB,
              processLines_upto_done parse hpay (pySplitlines A) (pySplitlines m')]
          dsimp only
          rw [if_pos rfl]

/-- C6: for every chunking of an SSE text stream that contains a complete
line whose stripped data payload is the literal `[DONE]` — wherever that line
sits: in the first or any later chunk, split across chunks, mid-event after
other data lines of a not-yet-terminated event, or reached only by the
end-of-stream flush because no event separator follows it — decoding stops at
that line: the characters after it (the whole of `S`, spanning the rest of
the stream) are never parsed or emitted as events, and the output equals that
of the stream truncated right after the sentinel line. -/
theorem C6_terminal_sentinel (J : Type) (parse : List Char → Option J)
    (cs : List (List Char)) (A L S : List Char)
    (hjoin : joinAll cs = A ++ (L ++ '\n' :: S))
    (halign : A = [] ∨ ∃ B, A = B ++ ['\n'])
    (hnoLB : ∀ ch ∈ L, pyIsLineBreak ch = false)
    (hpay : dataPayloadOf L = Option.some doneLit) :
    sseDecodeText parse cs = sseDecodeText parse [A ++ L] := by
  rw [sseDecodeText_join parse cs, hjoin, sseDecodeText_single, sseDecodeText_single]
  exact drainFlush_sentinel parse hnoLB hpay A.length A (le_refl _) halign S

/-- C6 witness: the sentinel line arrives split across the second and third
chunks, after two complete events and a further data line of the same
never-terminated event; the trailing `data: 3` event is never emitted and
the output equals that of the truncated stream. -/
theorem C6_terminal_sentinel_witness :
    joinAll ["data: 1\n\ndata: 2".toList, "\n\ndata: x\ndata: [DO".toList,
        "NE]\ndata: 3\n\n".toList]
      = "data: 1\n\ndata: 2\n\ndata: x\n".toList
        ++ ("data: [DONE]".toList ++ '\n' :: "data: 3\n\n".toList) ∧
    sseDecodeText (Option.some : List Char → Option (List Char))
        ["data: 1\n\ndata: 2".toList, "\n\ndata: x\ndata: [DO".toList,
         "NE]\ndata: 3\n\n".toList]
      = sseDecodeText Option.some
          ["data: 1\n\ndata: 2\n\ndata: x\n".toList ++ "data: [DONE]".toList] := by
  refine ⟨by decide, ?_⟩
  exact C6_terminal_sentinel (List Char) Option.some
    ["data: 1\n\ndata: 2".toList, "\n\ndata: x\ndata: [DO".toList,
     "NE]\ndata: 3\n\n".toList]
    "data: 1\n\ndata: 2\n\ndata: x\n".toList "data: [DONE]".toList
    "data: 3\n\n".toList
    (by decide)
    (Or.inr ⟨"data: 1\n\ndata: 2\n\ndata: x".toList, by decide⟩)
    (by decide) (by decide)
